import Mathlib

/-!
# csvtk `freq`: chunked CSV reading and field frequency counting

A shallow embedding of `cmd/csv.go` (`CSVReader.Run`) and of the consumer loop
of `cmd/freq.go` (`freqCmd.Run`, the loop over `csvReader.Ch`).

Modelling conventions.

* A Go `string` is a Lean `String`, a record (`[]string`) is a `List String`.
* Go `int` / `uint64` values are `Int` / `Nat`: the only arithmetic in the
  modelled code is `f * -1`, `i + 1` and `id++` on column indices, buffer
  positions and chunk numbers.
* A Go `map` is an insertion-ordered association list without repeated keys.
  Go leaves the iteration order of a map unspecified; where the code ranges
  over a map the model walks the list front to back, and no theorem depends
  on that order.
* The underlying reader (`multicorecsv.Reader`) is given by what it returns: the
  records it yields, then either `io.EOF` or another error.
* The channel `csvReader.Ch` is the list of chunks in the order they are sent.
* `outfh` and the csv `writer` are a log of the write calls made on them; the
  calls are taken to succeed.
* `sort.Strings`, `strings.Join`, `strings.Split` and `strconv.Itoa` of the
  standard library are given by what they return; the helpers of the package
  `stringutil` are not part of the given sources and follow the spec.
* `parseFields` is not part of the given sources: its four results are fields
  of `FreqConfig`.
-/

namespace Csvtk

/-- One CSV record: `[]string`. -/
abbrev Row := List String

/-! ## `cmd/csv.go` -/

/-- The struct `CSVRecordsChunk`. `Err = none` is Go's `nil` error. -/
structure CSVRecordsChunk where
  ID : Nat
  Data : List Row
  Err : Option String
deriving DecidableEq, Repr

/-- What `csvReader.Reader.Read()` returns over the life of the reader: the
records of `rows` one by one, then `io.EOF` when `err = none`, or the
non-EOF error `e` when `err = some e`. -/
structure Source where
  rows : List Row
  err : Option String
deriving DecidableEq, Repr

/-- The `for` loop of `CSVReader.Run`, one iteration per call of `Read()`.
`chunkData` is the slice of `chunkSize` records being filled, `id` and `i` are
the loop variables of the same names. The result is the sequence of chunks
sent on `csvReader.Ch` before it is closed. `NewCSVReader` refuses a chunk
size below 1, so `chunkData[i]` is always in range. -/
def runLoop (chunkSize : Nat) (err : Option String) :
    List Row → List Row → Nat → Nat → List CSVRecordsChunk
  | [], chunkData, id, i =>
    match err with
    | none => [{ ID := id + 1, Data := chunkData.take i, Err := none }]
    | some e => [{ ID := id, Data := chunkData.take i, Err := some e }]
  | record :: rest, chunkData, id, i =>
    let chunkData := chunkData.set i record
    let i := i + 1
    if i = chunkSize then
      { ID := id + 1, Data := chunkData, Err := none } ::
        runLoop chunkSize err rest (List.replicate chunkSize []) (id + 1) 0
    else
      runLoop chunkSize err rest chunkData id i

/-- The chunks delivered by `CSVReader.Run` for a reader of chunk size
`chunkSize` over the source `src`:
`chunkData := make([][]string, chunkSize)`, `id = 0`, `i = 0`. -/
def Run (chunkSize : Nat) (src : Source) : List CSVRecordsChunk :=
  runLoop chunkSize src.err src.rows (List.replicate chunkSize []) 0 0

/-! ## Go maps -/

/-- The map `m` after `m[k] = v`: the entry of `k` is overwritten when there is
one, appended otherwise. -/
def mapSet {κ ν : Type} [DecidableEq κ] : List (κ × ν) → κ → ν → List (κ × ν)
  | [], k, v => [(k, v)]
  | (k', v') :: m, k, v =>
    if k' = k then (k, v) :: m else (k', v') :: mapSet m k v

/-- The two-result lookup `v, ok := m[k]`: `none` when `ok` is false. -/
def mapGet {κ ν : Type} [DecidableEq κ] : List (κ × ν) → κ → Option ν
  | [], _ => none
  | (k', v') :: m, k => if k' = k then some v' else mapGet m k

/-- The test `_, ok := m[k]`. -/
def mapHas {κ ν : Type} [DecidableEq κ] (m : List (κ × ν)) (k : κ) : Bool :=
  (mapGet m k).isSome

/-! ## `cmd/freq.go` -/

/-- The separator of `strings.Join(items, "_shenwei356_")`. -/
def keySep : String := "_shenwei356_"

/-- The ways the run is aborted: `checkError` on a non-nil error, or a Go
run-time panic. -/
inductive FreqError where
  /-- The error carried by a chunk: `checkError(chunk.Err)`. -/
  | chunkErr (e : String)
  /-- The error `column "%s" not existed in file: %s`. -/
  | columnNotExisted (col : String)
  /-- The error `field (%d) out of range (%d) in file: %s`. -/
  | fieldOutOfRange (field : Int) (width : Nat)
  /-- The error `no fields matched in file: %s`. -/
  | noFieldsMatched
  /-- A run-time panic: index or slice bound out of range. -/
  | indexPanic
deriving DecidableEq, Repr

/-- Modelled from the spec: `checkError` is not part of the given sources.
The spec says that every error is fatal and aborts the run immediately upon
detection: a nil error lets the run go on, any other error ends it. -/
def checkError (err : Option FreqError) : Except FreqError Unit :=
  match err with
  | none => Except.ok ()
  | some e => Except.error e

/-- One write call on the output. -/
inductive Output where
  /-- The call `outfh.WriteString(s)`. -/
  | text (s : String)
  /-- The call `writer.Write(cells)`. -/
  | record (cells : List String)
deriving DecidableEq, Repr

/-- What the consumer loop of `freqCmd.Run` reads from flags and from the
reader. `fields`, `colnames`, `negativeFields` and `needParseHeaderRow` are the
four results of `parseFields`; `comma` is `string(writer.Comma)`; `metaLine` is
`csvReader.Reader.MetaLine`; `fuzzyField2Regexp col` is the test
`fuzzyField2Regexp(col).MatchString`. -/
structure FreqConfig where
  fields : List Int
  colnames : List String
  negativeFields : Bool
  needParseHeaderRow : Bool
  fuzzyFields : Bool
  comma : String
  metaLine : String
  fuzzyField2Regexp : String → String → Bool

/-- The variables of `freqCmd.Run` that the consumer loop reads and writes,
and the log `out` of the writes made so far. -/
structure FreqState where
  fields : List Int
  fieldsMap : List (Int × Unit)
  colnames2fileds : List (String × Int)
  colnamesMap : List (String × (String → Bool))
  parseHeaderRow : Bool
  printHeaderRow : Bool
  checkFields : Bool
  printMetaLine : Bool
  items : List String
  counter : List (String × Nat)
  out : List Output

/-- The loop `for _, f := range fields { fieldsMap[f] = struct{}{} }`. -/
def fieldsToMap (fields : List Int) : List (Int × Unit) :=
  fields.foldl (fun m f => mapSet m f ()) []

/-- Lines 60-75 and 90-106: the state before the first chunk is received. When
`fields` is not empty its entries are made positive (`f * -1` under
`negativeFields`) and collected in `fieldsMap`; otherwise `fieldsMap` stays
nil. -/
def initState (cfg : FreqConfig) : FreqState :=
  let fields2 :=
    if cfg.fields.length > 0 then
      cfg.fields.map (fun f => if cfg.negativeFields then f * -1 else f)
    else cfg.fields
  { fields := fields2
    fieldsMap := fieldsToMap fields2
    colnames2fileds := []
    colnamesMap := []
    parseHeaderRow := cfg.needParseHeaderRow
    printHeaderRow := cfg.needParseHeaderRow
    checkFields := true
    printMetaLine := true
    items := []
    counter := []
    out := [] }

/-- Lines 117-120: `for i, col := range record { colnames2fileds[col] = i + 1 }`,
from position `i` on. -/
def buildColnames2fileds : List String → Nat → List (String × Int) → List (String × Int)
  | [], _, m => m
  | col :: rest, i, m => buildColnames2fileds rest (i + 1) (mapSet m col ((i : Int) + 1))

/-- The slice expression `col[1:]`; it panics on the empty string. The slice is
taken on the characters of the string, which is the byte slice of the source
whenever the first character is a single byte, as the negation marker `-` is. -/
def dropFirst (col : String) : Except FreqError String :=
  if col.data.length < 1 then Except.error FreqError.indexPanic
  else Except.ok (String.mk (col.data.drop 1))

/-- Lines 121-133: the loop over `colnames` that checks each name against the
header (unless fuzzy) and fills `colnamesMap`. -/
def buildColnamesMap (cfg : FreqConfig) (colnames2fileds : List (String × Int)) :
    List String → List (String × (String → Bool)) →
      Except FreqError (List (String × (String → Bool)))
  | [], m => Except.ok m
  | col :: rest, m =>
    if !cfg.fuzzyFields && !mapHas colnames2fileds col then
      Except.error (FreqError.columnNotExisted col)
    else if cfg.negativeFields then
      match dropFirst col with
      | Except.error e => Except.error e
      | Except.ok name =>
        buildColnamesMap cfg colnames2fileds rest (mapSet m name (cfg.fuzzyField2Regexp name))
    else
      buildColnamesMap cfg colnames2fileds rest (mapSet m col (cfg.fuzzyField2Regexp col))

/-- Lines 138-148: whether the header cell `col` is selected by `colnamesMap`. -/
def nameMatches (cfg : FreqConfig) (colnamesMap : List (String × (String → Bool)))
    (col : String) : Bool :=
  if cfg.fuzzyFields then colnamesMap.any (fun kre => kre.2 col)
  else mapHas colnamesMap col

/-- Lines 136-152: the fields named by the user, looked up in `colnames2fileds`
(a missing key reads as 0). -/
def fieldsByName (cfg : FreqConfig) (colnamesMap : List (String × (String → Bool)))
    (colnames2fileds : List (String × Int)) (record : Row) : List Int :=
  record.foldl
    (fun fields col =>
      if nameMatches cfg colnamesMap col then
        fields ++ [(mapGet colnames2fileds col).getD 0]
      else fields)
    []

/-- Lines 116-161: the block run under `parseHeaderRow`. -/
def parseHeader (cfg : FreqConfig) (s : FreqState) (record : Row) :
    Except FreqError FreqState :=
  let colnames2fileds := buildColnames2fileds record 0 []
  match buildColnamesMap cfg colnames2fileds cfg.colnames [] with
  | Except.error e => Except.error e
  | Except.ok colnamesMap =>
    let fields :=
      if s.fields.length = 0 then fieldsByName cfg colnamesMap colnames2fileds record
      else s.fields
    Except.ok { s with
      colnames2fileds := colnames2fileds
      colnamesMap := colnamesMap
      fields := fields
      fieldsMap := fieldsToMap fields
      parseHeaderRow := false }

/-- Lines 168-180: the columns of a record of the given width that are kept,
in column order. -/
def selectFields (negativeFields : Bool) (fieldsMap : List (Int × Unit)) (width : Nat) :
    List Int :=
  (List.range width).foldl
    (fun fields2 (f : Nat) =>
      let ok := mapHas fieldsMap ((f : Int) + 1)
      if negativeFields then
        if !ok then fields2 ++ [(f : Int) + 1] else fields2
      else
        if ok then fields2 ++ [(f : Int) + 1] else fields2)
    []

/-- Lines 162-188: the block run under `checkFields`. -/
def checkFieldsStep (cfg : FreqConfig) (s : FreqState) (record : Row) :
    Except FreqError FreqState :=
  match s.fieldsMap.find? (fun fv => decide (fv.1 > (record.length : Int))) with
  | some fv => Except.error (FreqError.fieldOutOfRange fv.1 record.length)
  | none =>
    let fields2 := selectFields cfg.negativeFields s.fieldsMap record.length
    if fields2.length = 0 then Except.error FreqError.noFieldsMatched
    else
      Except.ok { s with
        fields := fields2
        items := List.replicate fields2.length ""
        checkFields := false }

/-- Lines 190-192: `for i, f := range fields { items[i] = record[f-1] }`, from
position `i` on. An index outside `record` or `items` is a panic. -/
def fillItems (record : Row) : List Int → Nat → List String → Except FreqError (List String)
  | [], _, items => Except.ok items
  | f :: fields, i, items =>
    if f - 1 < 0 then Except.error FreqError.indexPanic
    else
      match record.get? (f - 1).toNat with
      | none => Except.error FreqError.indexPanic
      | some cell =>
        if items.length ≤ i then Except.error FreqError.indexPanic
        else fillItems record fields (i + 1) (items.set i cell)

/-- Line 201: `counter[key]++`. -/
def counterIncr (counter : List (String × Nat)) (key : String) : List (String × Nat) :=
  mapSet counter key ((mapGet counter key).getD 0 + 1)

/-- Lines 190-201: the part of the loop body after field resolution: fill
`items`, then either write the header row and skip the record, or count the
record under its joined key. -/
def countRecord (s : FreqState) (record : Row) : Except FreqError FreqState :=
  match fillItems record s.fields 0 s.items with
  | Except.error e => Except.error e
  | Except.ok items =>
    if s.printHeaderRow then
      Except.ok { s with
        items := items
        out := s.out ++ [Output.record (items ++ ["frequency"])]
        printHeaderRow := false }
    else
      Except.ok { s with
        items := items
        counter := counterIncr s.counter (String.intercalate keySep items) }

/-- Lines 115-202: the body of `for _, record := range chunk.Data`. -/
def processRecord (cfg : FreqConfig) (s : FreqState) (record : Row) :
    Except FreqError FreqState :=
  match (if s.parseHeaderRow then parseHeader cfg s record else Except.ok s) with
  | Except.error e => Except.error e
  | Except.ok s1 =>
    match (if s1.checkFields then checkFieldsStep cfg s1 record else Except.ok s1) with
    | Except.error e => Except.error e
    | Except.ok s2 => countRecord s2 record

/-- An aborted run: the error, and the writes made before it. -/
structure Failure where
  err : FreqError
  out : List Output
deriving DecidableEq, Repr

/-- The loop `for _, record := range chunk.Data`. Within one record every
error is raised before the only write (the header row), so an error in a
record leaves the writes of the state the record started from. -/
def processRecords (cfg : FreqConfig) : FreqState → List Row → Except Failure FreqState
  | s, [] => Except.ok s
  | s, record :: rest =>
    match processRecord cfg s record with
    | Except.error e => Except.error { err := e, out := s.out }
    | Except.ok s1 => processRecords cfg s1 rest

/-- Lines 108-113: the chunk's error is checked first, then the `sep=` line is
written once when the reader has a meta line. -/
def beginChunk (cfg : FreqConfig) (s : FreqState) (chunk : CSVRecordsChunk) :
    Except FreqError FreqState :=
  match checkError (chunk.Err.map FreqError.chunkErr) with
  | Except.error e => Except.error e
  | Except.ok () =>
    if s.printMetaLine && decide (cfg.metaLine.length > 0) then
      Except.ok { s with
        out := s.out ++ [Output.text ("sep=" ++ cfg.comma ++ "\n")]
        printMetaLine := false }
    else Except.ok s

/-- Lines 107-203: the loop `for chunk := range csvReader.Ch`. -/
def processChunks (cfg : FreqConfig) : FreqState → List CSVRecordsChunk → Except Failure FreqState
  | s, [] => Except.ok s
  | s, chunk :: rest =>
    match beginChunk cfg s chunk with
    | Except.error e => Except.error { err := e, out := s.out }
    | Except.ok s1 =>
      match processRecords cfg s1 chunk.Data with
      | Except.error e => Except.error e
      | Except.ok s2 => processChunks cfg s2 rest

/-- The ingestion part of `freqCmd.Run` (lines 60-203) for a reader of chunk
size `chunkSize` over `src`: the state when the channel has been drained, or the
error that aborted the run. -/
def freqIngest (cfg : FreqConfig) (chunkSize : Nat) (src : Source) : Except Failure FreqState :=
  processChunks cfg (initState cfg) (Run chunkSize src)

/-- The field list fixed on the first record `record` of a run: the header
block (when `needParseHeaderRow`) followed by the `checkFields` block. -/
def resolveFields (cfg : FreqConfig) (record : Row) : Except FreqError (List Int) :=
  let s := initState cfg
  match (if s.parseHeaderRow then parseHeader cfg s record else Except.ok s) with
  | Except.error e => Except.error e
  | Except.ok s1 =>
    match checkFieldsStep cfg s1 record with
    | Except.error e => Except.error e
    | Except.ok s2 => Except.ok s2.fields

/-- The sum of all counts of a counter table. -/
def counterTotal (counter : List (String × Nat)) : Nat :=
  (counter.map Prod.snd).sum

/-- The cells of `record` at the positions `fields` (1-based), in the order of
`fields`; a missing cell reads as the empty string. -/
def selectedCells (fields : List Int) (record : Row) : List String :=
  fields.map (fun f => record.getD (f - 1).toNat "")

/-- Lines 190-200 for one record once `fields` is fixed and `items` has been
allocated (`make([]string, len(fields))`): the key under which the record is
counted. -/
def aggregationKey (fields : List Int) (record : Row) : Except FreqError String :=
  match fillItems record fields 0 (List.replicate fields.length "") with
  | Except.error e => Except.error e
  | Except.ok items => Except.ok (String.intercalate keySep items)

/-- The list `L` is strictly ascending and holds exactly the integers that
satisfy `P`. -/
def IsAscendingListOf (L : List Int) (P : Int → Prop) : Prop :=
  L.Pairwise (fun a b => a < b) ∧ ∀ i : Int, i ∈ L ↔ P i

/-- Modelled from the spec: `fuzzyField2Regexp` is not part of the given
sources. The spec describes a wildcard-style matcher for patterns such as
`*name` or `id123*`: `*` stands for any run of characters, any other character
for itself, and the pattern has to match the whole cell. -/
def wildcardMatch : List Char → List Char → Bool
  | [], cell => cell.isEmpty
  | p :: ps, cell =>
    if p = '*' then cell.tails.any (wildcardMatch ps)
    else
      match cell with
      | [] => false
      | c :: cs => decide (p = c) && wildcardMatch ps cs

/-- A configuration for the examples: comma separated output, no meta line,
the wildcard matcher. -/
def exampleConfig (fields : List Int) (colnames : List String)
    (negativeFields needParseHeaderRow fuzzyFields : Bool) : FreqConfig :=
  { fields := fields
    colnames := colnames
    negativeFields := negativeFields
    needParseHeaderRow := needParseHeaderRow
    fuzzyFields := fuzzyFields
    comma := ","
    metaLine := ""
    fuzzyField2Regexp := fun pattern cell => wildcardMatch pattern.data cell.data }

/-- Lines 63-74: the indices asked for by a positional specification, made
positive (`f * -1` under `negativeFields`). -/
def requestedIndices (cfg : FreqConfig) : List Int :=
  cfg.fields.map (fun f => if cfg.negativeFields then f * -1 else f)

/-- The match test of the spec for one header cell against the names `names`:
in non-fuzzy mode the cell equals one of the names, in fuzzy mode the cell is
accepted by the matcher of at least one name. -/
def headerCellMatches (cfg : FreqConfig) (names : List String) (cell : String) : Bool :=
  if cfg.fuzzyFields then names.any (fun name => cfg.fuzzyField2Regexp name cell)
  else decide (cell ∈ names)

/-- Lines 110-113 on the first chunk: the `sep=` line when the reader has a
meta line, nothing otherwise. -/
def metaLineOutput (cfg : FreqConfig) : List Output :=
  if cfg.metaLine.length > 0 then [Output.text ("sep=" ++ cfg.comma ++ "\n")] else []

/-! ## `cmd/freq.go`: emission (lines 205-249) -/

/-- Go's `strings.Split(s, sep)` for a non-empty separator, on the characters
of `s`: the text is cut at each occurrence of `sep`, found from left to right
without overlap. `piece` is the part read since the last cut, `skip` the number
of characters of a separator just found that are still to be passed. -/
def splitGo (sep : List Char) : List Char → List Char → Nat → List (List Char)
  | [], piece, _ => [piece]
  | _ :: cs, piece, skip + 1 => splitGo sep cs piece skip
  | c :: cs, piece, 0 =>
    if sep.isPrefixOf (c :: cs) then piece :: splitGo sep cs [] (sep.length - 1)
    else splitGo sep cs (piece ++ [c]) 0

/-- The call `strings.Split(s, sep)`. -/
def stringsSplit (s sep : String) : List String :=
  (splitGo sep.data s.data [] 0).map String.mk

/-- Ordinal comparison `a <= b` of two texts, character by character (for
well-formed UTF-8 this is the byte-wise order of Go's `<` on strings). -/
def charsLe : List Char → List Char → Bool
  | [], _ => true
  | _ :: _, [] => false
  | a :: as, b :: bs => if a < b then true else if a = b then charsLe as bs else false

/-- Ordinal (byte-wise) comparison of two strings. -/
def ordinalLe (a b : String) : Bool := charsLe a.data b.data

/-- Lexicographic comparison of two tuples of cells, cell by cell, each pair of
cells compared ordinally. -/
def tupleLe : List String → List String → Bool
  | [], _ => true
  | _ :: _, [] => false
  | a :: as, b :: bs => if a = b then tupleLe as bs else ordinalLe a b

/-- The call `sort.Strings(keys)` of the standard library: the keys in
increasing order. -/
def sortStrings (keys : List String) : List String :=
  keys.insertionSort (fun a b => ordinalLe a b = true)

/-- Modelled from the spec: `stringutil.ReverseStringSliceInplace` is not part
of the given sources. The spec says that the by-key order is "descending when
reverse is requested": the slice is reversed. -/
def ReverseStringSliceInplace (keys : List String) : List String :=
  keys.reverse

/-- The struct `stringutil.StringCount`. -/
structure StringCount where
  Key : String
  Count : Nat
deriving DecidableEq, Repr

/-- Modelled from the spec: `stringutil.StringCountList` is not part of the
given sources. The spec says that the by-frequency mode orders "by count
ascending by default" and leaves the order among equal counts unspecified:
`sort.Sort(stringutil.StringCountList(counts))` puts the entries in
non-decreasing order of `Count`. -/
def sortStringCountList (counts : List StringCount) : List StringCount :=
  counts.insertionSort (fun a b => a.Count ≤ b.Count)

/-- Modelled from the spec: `stringutil.ReversedStringCountList` is not part of
the given sources. The spec says that the by-frequency mode orders by count
"descending when reverse is requested":
`sort.Sort(stringutil.ReversedStringCountList{counts})` puts the entries in
non-increasing order of `Count`. -/
def sortReversedStringCountList (counts : List StringCount) : List StringCount :=
  counts.insertionSort (fun a b => b.Count ≤ a.Count)

/-- The call `strconv.Itoa(n)` for a count. -/
def Itoa (n : Nat) : String := Nat.repr n

/-- Lines 206-216: the slice `counts`, filled from the table and sorted. -/
def sortedCounts (reverse : Bool) (counter : List (String × Nat)) : List StringCount :=
  let counts := counter.map (fun kc => ({ Key := kc.1, Count := kc.2 } : StringCount))
  if reverse then sortReversedStringCountList counts else sortStringCountList counts

/-- Lines 223-233: the slice `keys`, filled from the table, sorted and, under
`reverse`, reversed. -/
def sortedKeys (reverse : Bool) (counter : List (String × Nat)) : List String :=
  let keys := sortStrings (counter.map Prod.fst)
  if reverse then ReverseStringSliceInplace keys else keys

/-- The output row made from a key and a count:
`append(strings.Split(key, "_shenwei356_"), strconv.Itoa(count))`. -/
def emitRow (key : String) (count : Nat) : List String :=
  stringsSplit key keySep ++ [Itoa count]

/-- Lines 205-246: the rows written after ingestion, in the order they are
written. In the two sorted modes the count is read back from the table
(`counter[key]`, 0 for a missing key). -/
def emit (sortByFreq sortByKey reverse : Bool) (counter : List (String × Nat)) :
    List (List String) :=
  if sortByFreq then
    (sortedCounts reverse counter).map
      (fun count => emitRow count.Key ((mapGet counter count.Key).getD 0))
  else if sortByKey then
    (sortedKeys reverse counter).map
      (fun key => emitRow key ((mapGet counter key).getD 0))
  else
    counter.map (fun kc => emitRow kc.1 kc.2)

/-- The counts written in by-frequency mode, in emission order. -/
def emittedCounts (reverse : Bool) (counter : List (String × Nat)) : List Nat :=
  (sortedCounts reverse counter).map (fun count => (mapGet counter count.Key).getD 0)

/-- The whole of `freqCmd.Run` from line 60 on: ingestion, then emission. The
result is the log of all writes, or the failure that aborted the run. -/
def freqRun (cfg : FreqConfig) (sortByFreq sortByKey reverse : Bool) (chunkSize : Nat)
    (src : Source) : Except Failure (List Output) :=
  match freqIngest cfg chunkSize src with
  | Except.error f => Except.error f
  | Except.ok s => Except.ok (s.out ++ (emit sortByFreq sortByKey reverse s.counter).map Output.record)

/-- The text of `strings.Join(items, sep)`, on characters. -/
def joinChars (sep : List Char) : List (List Char) → List Char
  | [] => []
  | [x] => x
  | x :: y :: rest => x ++ sep ++ joinChars sep (y :: rest)

/-- The cell holds the separator `_shenwei356_` as a substring. -/
def containsSep (cell : String) : Prop := keySep.data <:+: cell.data

/-- The cell ends with `_shenwei356`, the separator without its last
character. -/
def endsWithSepHead (cell : String) : Prop := keySep.data.dropLast <:+ cell.data

/-- The state of the loop once the field list has been fixed on the first
record: the header block and the `checkFields` block are over, the indices are
positive and `items` has one slot per field (lines 181-187). -/
def Resolved (s : FreqState) : Prop :=
  s.parseHeaderRow = false ∧ s.checkFields = false
    ∧ (∀ f ∈ s.fields, 1 ≤ f) ∧ s.items.length = s.fields.length

deriving instance DecidableEq for Except

/-! ## Theorems: `CSVReader.Run` -/

theorem take_set_succ {α : Type} (l : List α) (i : Nat) (a : α) (h : i < l.length) :
    (l.set i a).take (i + 1) = l.take i ++ [a] := by
  induction l generalizing i with
  | nil => simp at h
  | cons x xs ih =>
    cases i with
    | zero => simp
    | succ j =>
      simp only [List.length_cons, Nat.add_lt_add_iff_right] at h
      simp [ih j h]

theorem set_last_eq {α : Type} (l : List α) (i : Nat) (a : α) (h : i + 1 = l.length) :
    l.set i a = l.take i ++ [a] := by
  have h1 : (l.set i a).take (i + 1) = l.set i a :=
    List.take_of_length_le (by simp [h])
  rw [← h1]
  exact take_set_succ l i a (by omega)

theorem runLoop_ne_nil (chunkSize : Nat) (err : Option String) (rows chunkData : List Row)
    (id i : Nat) : runLoop chunkSize err rows chunkData id i ≠ [] := by
  induction rows generalizing chunkData id i with
  | nil => cases err <;> simp [runLoop]
  | cons record rest ih =>
    simp only [runLoop]
    split
    · simp
    · exact ih _ _ _

/-- The records of the chunks sent by the loop, in order, are the records
already buffered followed by the records still to be read; this holds for
both ways the stream can end. -/
theorem runLoop_data (chunkSize : Nat) (err : Option String) (rows chunkData : List Row)
    (id i : Nat) (hlen : chunkData.length = chunkSize) (hi : i < chunkSize) :
    ((runLoop chunkSize err rows chunkData id i).map CSVRecordsChunk.Data).flatten
      = chunkData.take i ++ rows := by
  induction rows generalizing chunkData id i with
  | nil => cases err <;> simp [runLoop]
  | cons record rest ih =>
    simp only [runLoop]
    split
    · next hfull =>
      have hrep : (List.replicate chunkSize ([] : Row)).length = chunkSize := by simp
      have h0 : 0 < chunkSize := by omega
      rw [List.map_cons, List.flatten_cons, ih _ _ _ hrep h0]
      rw [set_last_eq chunkData i record (by omega)]
      simp
    · next hnot =>
      have hlen2 : (chunkData.set i record).length = chunkSize := by simp [hlen]
      rw [ih _ _ _ hlen2 (by omega), take_set_succ chunkData i record (by omega)]
      simp

/-- Every chunk sent by the loop before the last one holds `chunkSize`
records. -/
theorem runLoop_sizes (chunkSize : Nat) (err : Option String) (rows chunkData : List Row)
    (id i : Nat) (hlen : chunkData.length = chunkSize) (hi : i < chunkSize) :
    ∀ c ∈ (runLoop chunkSize err rows chunkData id i).dropLast,
      c.Data.length = chunkSize := by
  induction rows generalizing chunkData id i with
  | nil => cases err <;> simp [runLoop]
  | cons record rest ih =>
    simp only [runLoop]
    split
    · next hfull =>
      have hrep : (List.replicate chunkSize ([] : Row)).length = chunkSize := by simp
      have h0 : 0 < chunkSize := by omega
      rw [List.dropLast_cons_of_ne_nil (runLoop_ne_nil _ _ _ _ _ _)]
      intro c hc
      rcases List.mem_cons.mp hc with hc | hc
      · subst hc
        simp [hlen]
      · exact ih _ _ _ hrep h0 c hc
    · next hnot =>
      have hlen2 : (chunkData.set i record).length = chunkSize := by simp [hlen]
      exact ih _ _ _ hlen2 (by omega)

/-- The records of all chunks delivered by `Run`, in order, are the records
the reader returned before it stopped. -/
theorem Run_data (chunkSize : Nat) (src : Source) (h : 1 ≤ chunkSize) :
    ((Run chunkSize src).map CSVRecordsChunk.Data).flatten = src.rows := by
  unfold Run
  rw [runLoop_data chunkSize src.err src.rows _ 0 0 (by simp) (by omega)]
  simp

/-- C3: for every row sequence read to end-of-stream without error and every
chunk size of at least 1, the data of the chunks delivered by `CSVReader.Run`,
concatenated in delivery order, are exactly the input rows in their original
order, and every chunk except the last holds exactly `chunkSize` rows. -/
theorem Run_chunks_partition_rows (chunkSize : Nat) (rows : List Row)
    (h : 1 ≤ chunkSize) :
    ((Run chunkSize { rows := rows, err := none }).map CSVRecordsChunk.Data).flatten = rows
    ∧ ∀ c ∈ (Run chunkSize { rows := rows, err := none }).dropLast,
        c.Data.length = chunkSize :=
  ⟨Run_data chunkSize { rows := rows, err := none } h,
   runLoop_sizes chunkSize none rows _ 0 0 (by simp) (by omega)⟩

theorem Run_chunks_partition_rows_witness :
    1 ≤ 2
    ∧ (((Run 2 { rows := [["1"], ["2"], ["3"], ["4"], ["5"]], err := none }).map
          CSVRecordsChunk.Data).flatten = [["1"], ["2"], ["3"], ["4"], ["5"]]
      ∧ ∀ c ∈ (Run 2 { rows := [["1"], ["2"], ["3"], ["4"], ["5"]], err := none }).dropLast,
          c.Data.length = 2) :=
  ⟨by decide, Run_chunks_partition_rows 2 [["1"], ["2"], ["3"], ["4"], ["5"]] (by decide)⟩

/-! ## Theorems: counting -/

theorem counterTotal_counterIncr (counter : List (String × Nat)) (key : String) :
    counterTotal (counterIncr counter key) = counterTotal counter + 1 := by
  unfold counterIncr counterTotal
  induction counter with
  | nil => simp [mapSet, mapGet]
  | cons kv m ih =>
    obtain ⟨k', v'⟩ := kv
    by_cases hk : k' = key
    · simp [mapSet, mapGet, hk]
      omega
    · simp only [mapSet, mapGet, hk, if_false, List.map_cons, List.sum_cons]
      rw [ih]
      omega

theorem parseHeader_keeps (cfg : FreqConfig) (s s1 : FreqState) (record : Row)
    (h : parseHeader cfg s record = Except.ok s1) :
    s1.counter = s.counter ∧ s1.printHeaderRow = s.printHeaderRow
      ∧ s1.checkFields = s.checkFields ∧ s1.out = s.out := by
  unfold parseHeader at h
  cases hm : buildColnamesMap cfg (buildColnames2fileds record 0 []) cfg.colnames [] with
  | error e => simp [hm] at h
  | ok m =>
    simp only [hm, Except.ok.injEq] at h
    subst h
    simp

theorem checkFieldsStep_keeps (cfg : FreqConfig) (s s1 : FreqState) (record : Row)
    (h : checkFieldsStep cfg s record = Except.ok s1) :
    s1.counter = s.counter ∧ s1.printHeaderRow = s.printHeaderRow ∧ s1.out = s.out := by
  unfold checkFieldsStep at h
  split at h
  · simp at h
  · dsimp only at h
    split at h
    · simp at h
    · simp only [Except.ok.injEq] at h
      subst h
      simp

theorem countRecord_total (s s1 : FreqState) (record : Row)
    (h : countRecord s record = Except.ok s1) :
    counterTotal s1.counter + (if s.printHeaderRow = true then 1 else 0)
        = counterTotal s.counter + 1
      ∧ s1.printHeaderRow = false := by
  unfold countRecord at h
  split at h
  · simp at h
  · split at h
    · next hp =>
      simp only [Except.ok.injEq] at h
      subst h
      simp [hp]
    · next hp =>
      simp only [Except.ok.injEq] at h
      subst h
      simp only [Bool.not_eq_true] at hp
      simp [hp, counterTotal_counterIncr]

/-- One record either becomes the header row (when the header is still due) or
adds one to the sum of the counts; the header is never due afterwards. -/
theorem processRecord_total (cfg : FreqConfig) (s s1 : FreqState) (record : Row)
    (h : processRecord cfg s record = Except.ok s1) :
    counterTotal s1.counter + (if s.printHeaderRow = true then 1 else 0)
        = counterTotal s.counter + 1
      ∧ s1.printHeaderRow = false := by
  unfold processRecord at h
  split at h
  · simp at h
  · next sa ha =>
    split at h
    · simp at h
    · next sb hb =>
      have h1 : sa.counter = s.counter ∧ sa.printHeaderRow = s.printHeaderRow := by
        split at ha
        · exact ⟨(parseHeader_keeps cfg s sa record ha).1,
            (parseHeader_keeps cfg s sa record ha).2.1⟩
        · simp only [Except.ok.injEq] at ha
          subst ha
          exact ⟨rfl, rfl⟩
      have h2 : sb.counter = sa.counter ∧ sb.printHeaderRow = sa.printHeaderRow := by
        split at hb
        · exact ⟨(checkFieldsStep_keeps cfg sa sb record hb).1,
            (checkFieldsStep_keeps cfg sa sb record hb).2.1⟩
        · simp only [Except.ok.injEq] at hb
          subst hb
          exact ⟨rfl, rfl⟩
      have h3 := countRecord_total sb s1 record h
      rw [h2.1, h2.2, h1.1, h1.2] at h3
      exact h3

theorem processRecords_total (cfg : FreqConfig) (s s1 : FreqState) (rows : List Row)
    (h : processRecords cfg s rows = Except.ok s1) :
    counterTotal s1.counter + (if s.printHeaderRow = true ∧ 0 < rows.length then 1 else 0)
        = counterTotal s.counter + rows.length
      ∧ (s1.printHeaderRow = true ↔ s.printHeaderRow = true ∧ rows.length = 0) := by
  induction rows generalizing s with
  | nil =>
    simp only [processRecords, Except.ok.injEq] at h
    subst h
    simp
  | cons record rest ih =>
    simp only [processRecords] at h
    split at h
    · simp at h
    · next sa ha =>
      obtain ⟨t1, p1⟩ := processRecord_total cfg s sa record ha
      obtain ⟨t2, p2⟩ := ih sa h
      simp only [p1, Bool.false_eq_true, false_and, if_false, Nat.add_zero] at t2
      simp only [p1, Bool.false_eq_true, false_and, iff_false] at p2
      refine ⟨?_, ?_⟩
      · simp only [List.length_cons, Nat.zero_lt_succ, and_true]
        omega
      · simp [p2]

theorem beginChunk_keeps (cfg : FreqConfig) (s s1 : FreqState) (chunk : CSVRecordsChunk)
    (h : beginChunk cfg s chunk = Except.ok s1) :
    s1.counter = s.counter ∧ s1.printHeaderRow = s.printHeaderRow := by
  unfold beginChunk at h
  split at h
  · simp at h
  · split at h
    · simp only [Except.ok.injEq] at h
      subst h
      simp
    · simp only [Except.ok.injEq] at h
      subst h
      simp

theorem processChunks_total (cfg : FreqConfig) (s s1 : FreqState)
    (chunks : List CSVRecordsChunk)
    (h : processChunks cfg s chunks = Except.ok s1) :
    counterTotal s1.counter
        + (if s.printHeaderRow = true
              ∧ 0 < (chunks.map CSVRecordsChunk.Data).flatten.length then 1 else 0)
        = counterTotal s.counter + (chunks.map CSVRecordsChunk.Data).flatten.length
      ∧ (s1.printHeaderRow = true ↔
          s.printHeaderRow = true
            ∧ (chunks.map CSVRecordsChunk.Data).flatten.length = 0) := by
  induction chunks generalizing s with
  | nil =>
    simp only [processChunks, Except.ok.injEq] at h
    subst h
    simp
  | cons chunk rest ih =>
    simp only [processChunks] at h
    split at h
    · simp at h
    · next sa ha =>
      split at h
      · simp at h
      · next sb hb =>
        obtain ⟨c0, p0⟩ := beginChunk_keeps cfg s sa chunk ha
        obtain ⟨t1, p1⟩ := processRecords_total cfg sa sb chunk.Data hb
        obtain ⟨t2, p2⟩ := ih sb h
        rw [c0, p0] at t1
        rw [p0] at p1
        simp only [List.map_cons, List.flatten_cons, List.length_append]
        generalize (rest.map CSVRecordsChunk.Data).flatten.length = n at t2 p2 ⊢
        generalize chunk.Data.length = m at t1 p1 ⊢
        cases hs : s.printHeaderRow <;> cases hsb : sb.printHeaderRow
          <;> cases hs1 : s1.printHeaderRow
          <;> simp only [hs, hsb, hs1, Bool.false_eq_true, false_and, true_and, if_false,
            iff_false, false_iff, true_iff, not_false_eq_true, not_true_eq_false,
            iff_true] at t1 t2 p1 p2 ⊢
          <;> refine ⟨?_, ?_⟩ <;> (try split_ifs at t1) <;> (try split_ifs at t2)
          <;> (try split_ifs) <;> first | trivial | omega

/-- C1: whenever the run (read with a chunk size of at least 1) completes
without a fatal error, the sum of all counts in the final counter table is the
number of data rows: the number of input rows when the header mode is off, and
that number minus one when the header mode is on and the input is not empty. -/
theorem freqIngest_counterTotal (cfg : FreqConfig) (chunkSize : Nat) (src : Source)
    (s : FreqState) (hsize : 1 ≤ chunkSize)
    (h : freqIngest cfg chunkSize src = Except.ok s) :
    counterTotal s.counter =
      if cfg.needParseHeaderRow = true ∧ src.rows ≠ [] then src.rows.length - 1
      else src.rows.length := by
  unfold freqIngest at h
  obtain ⟨t, _⟩ := processChunks_total cfg (initState cfg) s (Run chunkSize src) h
  rw [Run_data chunkSize src hsize] at t
  have h0 : counterTotal (initState cfg).counter = 0 := by simp [initState, counterTotal]
  have hp : (initState cfg).printHeaderRow = cfg.needParseHeaderRow := by simp [initState]
  rw [h0, hp] at t
  have hne : src.rows ≠ [] ↔ 0 < src.rows.length := by
    rw [List.length_pos]
  simp only [hne]
  split_ifs at t ⊢ <;> omega

theorem freqIngest_counterTotal_witness :
    1 ≤ 2
    ∧ freqIngest (exampleConfig [1, 2] [] false true false) 2
        { rows := [["k", "v"], ["a", "x"], ["b", "y"], ["a", "x"]], err := none }
      = Except.ok
          { fields := [1, 2]
            fieldsMap := [(1, ()), (2, ())]
            colnames2fileds := [("k", 1), ("v", 2)]
            colnamesMap := []
            parseHeaderRow := false
            printHeaderRow := false
            checkFields := false
            printMetaLine := true
            items := ["a", "x"]
            counter := [("a_shenwei356_x", 2), ("b_shenwei356_y", 1)]
            out := [Output.record ["k", "v", "frequency"]] }
    ∧ counterTotal [("a_shenwei356_x", 2), ("b_shenwei356_y", 1)] =
        if (exampleConfig [1, 2] [] false true false).needParseHeaderRow = true
            ∧ [["k", "v"], ["a", "x"], ["b", "y"], ["a", "x"]] ≠ ([] : List Row)
        then [["k", "v"], ["a", "x"], ["b", "y"], ["a", "x"]].length - 1
        else [["k", "v"], ["a", "x"], ["b", "y"], ["a", "x"]].length :=
  ⟨by decide, rfl,
    freqIngest_counterTotal (exampleConfig [1, 2] [] false true false) 2
      { rows := [["k", "v"], ["a", "x"], ["b", "y"], ["a", "x"]], err := none } _
      (by decide) rfl⟩

/-! ## Theorems: field resolution -/

theorem foldl_append_if {α β : Type} (p : α → Bool) (g : α → β) (l : List α)
    (init : List β) :
    l.foldl (fun acc x => if p x = true then acc ++ [g x] else acc) init
      = init ++ (l.filter p).map g := by
  induction l generalizing init with
  | nil => simp
  | cons x xs ih =>
    simp only [List.foldl_cons]
    rw [ih]
    by_cases hp : p x = true
    · simp [hp, List.filter_cons]
    · simp [hp, List.filter_cons]

/-- The columns kept by the `checkFields` block, written as a filter over the
column positions. -/
theorem selectFields_eq (negativeFields : Bool) (fieldsMap : List (Int × Unit)) (width : Nat) :
    selectFields negativeFields fieldsMap width
      = ((List.range width).filter
          (fun (f : Nat) => if negativeFields then !mapHas fieldsMap ((f : Int) + 1)
                    else mapHas fieldsMap ((f : Int) + 1))).map
          (fun (f : Nat) => (f : Int) + 1) := by
  unfold selectFields
  rw [← List.nil_append (List.map _ _), ← foldl_append_if]
  congr 1
  funext acc f
  cases negativeFields <;> cases mapHas fieldsMap ((f : Int) + 1) <;> simp

theorem selectFields_pairwise (negativeFields : Bool) (fieldsMap : List (Int × Unit))
    (width : Nat) :
    (selectFields negativeFields fieldsMap width).Pairwise (fun a b => a < b) := by
  rw [selectFields_eq, List.pairwise_map]
  apply List.Pairwise.filter
  have hmono : ∀ a b : Nat, a < b → (a : Int) + 1 < (b : Int) + 1 := by
    intro a b hab
    omega
  exact (List.pairwise_lt_range width).imp (hmono _ _)

theorem mem_selectFields (negativeFields : Bool) (fieldsMap : List (Int × Unit))
    (width : Nat) (i : Int) :
    i ∈ selectFields negativeFields fieldsMap width ↔
      1 ≤ i ∧ i ≤ width ∧ (mapHas fieldsMap i = !negativeFields) := by
  rw [selectFields_eq]
  simp only [List.mem_map, List.mem_filter, List.mem_range]
  constructor
  · rintro ⟨f, ⟨hf, hsel⟩, rfl⟩
    have h1 : (1 : Int) ≤ (f : Int) + 1 := by omega
    have h2 : (f : Int) + 1 ≤ (width : Int) := by omega
    refine ⟨h1, h2, ?_⟩
    cases negativeFields <;> simpa using hsel
  · rintro ⟨h1, h2, hsel⟩
    have hi : (((i - 1).toNat : Nat) : Int) + 1 = i := by omega
    have hlt : (i - 1).toNat < width := by omega
    refine ⟨(i - 1).toNat, ⟨hlt, ?_⟩, hi⟩
    rw [hi]
    cases negativeFields <;> simpa using hsel

theorem checkFieldsStep_ok (cfg : FreqConfig) (s s1 : FreqState) (record : Row)
    (h : checkFieldsStep cfg s record = Except.ok s1) :
    s1.fields = selectFields cfg.negativeFields s.fieldsMap record.length
      ∧ s1.fields ≠ [] ∧ s1.items.length = s1.fields.length
      ∧ s1.checkFields = false ∧ s1.parseHeaderRow = s.parseHeaderRow := by
  unfold checkFieldsStep at h
  split at h
  · simp at h
  · dsimp only at h
    split at h
    · simp at h
    · next hne =>
      simp only [Except.ok.injEq] at h
      subst h
      refine ⟨rfl, ?_, by simp, rfl, rfl⟩
      intro h0
      have h0' : selectFields cfg.negativeFields s.fieldsMap record.length = [] := h0
      exact hne (by simp [h0'])

theorem resolveFields_ok (cfg : FreqConfig) (record : Row) (L : List Int)
    (h : resolveFields cfg record = Except.ok L) :
    ∃ fieldsMap, L = selectFields cfg.negativeFields fieldsMap record.length ∧ L ≠ [] := by
  unfold resolveFields at h
  dsimp only at h
  split at h
  · simp at h
  · next s1 _ =>
    split at h
    · simp at h
    · next s2 h2 =>
      simp only [Except.ok.injEq] at h
      subst h
      obtain ⟨e1, e2, _⟩ := checkFieldsStep_ok cfg s1 s2 record h2
      exact ⟨s1.fieldsMap, e1, e2⟩

/-- C4: whenever field resolution succeeds on the first row, in any selection
mode and for either sign, the resolved field list is not empty, strictly
ascending (so free of duplicates), and each of its indices lies between 1 and
the width of that row. -/
theorem resolveFields_nonempty_ascending_in_range (cfg : FreqConfig) (record : Row)
    (L : List Int) (h : resolveFields cfg record = Except.ok L) :
    L ≠ [] ∧ L.Pairwise (fun a b => a < b) ∧ L.Nodup
      ∧ ∀ f ∈ L, 1 ≤ f ∧ f ≤ (record.length : Int) := by
  obtain ⟨fieldsMap, hL, hne⟩ := resolveFields_ok cfg record L h
  have hpw : L.Pairwise (fun a b => a < b) := hL ▸ selectFields_pairwise _ _ _
  refine ⟨hne, hpw, hpw.imp (fun hab => by omega), ?_⟩
  intro f hf
  rw [hL, mem_selectFields] at hf
  exact ⟨hf.1, hf.2.1⟩

theorem resolveFields_nonempty_ascending_in_range_witness :
    resolveFields (exampleConfig [] ["-b*"] true true true) ["a1", "b1", "a2", "b2", "c"]
        = Except.ok [1, 3, 5]
    ∧ (([1, 3, 5] : List Int) ≠ [] ∧ ([1, 3, 5] : List Int).Pairwise (fun a b => a < b)
        ∧ ([1, 3, 5] : List Int).Nodup
        ∧ ∀ f ∈ ([1, 3, 5] : List Int),
            1 ≤ f ∧ f ≤ ((["a1", "b1", "a2", "b2", "c"] : Row).length : Int)) :=
  ⟨by decide,
    resolveFields_nonempty_ascending_in_range (exampleConfig [] ["-b*"] true true true)
      ["a1", "b1", "a2", "b2", "c"] [1, 3, 5] (by decide)⟩

/-! ## Theorems: Go maps -/

theorem mapGet_mapSet {κ ν : Type} [DecidableEq κ] (m : List (κ × ν)) (k k' : κ) (v : ν) :
    mapGet (mapSet m k v) k' = if k = k' then some v else mapGet m k' := by
  induction m with
  | nil => simp [mapSet, mapGet]
  | cons kv m ih =>
    obtain ⟨a, b⟩ := kv
    by_cases hak : a = k
    · subst hak
      by_cases hk : a = k' <;> simp [mapSet, mapGet, hk]
    · by_cases hk : k = k'
      · subst hk
        simp [mapSet, mapGet, hak, ih]
      · simp [mapSet, mapGet, hak, hk, ih]

theorem mem_of_mapGet {κ ν : Type} [DecidableEq κ] (m : List (κ × ν)) (k : κ) (v : ν)
    (h : mapGet m k = some v) : (k, v) ∈ m := by
  induction m with
  | nil => simp [mapGet] at h
  | cons kv m ih =>
    obtain ⟨a, b⟩ := kv
    by_cases hak : a = k
    · simp only [mapGet, hak, if_true, Option.some.injEq] at h
      simp [hak, h]
    · simp only [mapGet, hak, if_false] at h
      exact List.mem_cons_of_mem _ (ih h)

theorem mapHas_of_mem {κ ν : Type} [DecidableEq κ] (m : List (κ × ν)) (k : κ) (v : ν)
    (h : (k, v) ∈ m) : mapHas m k = true := by
  induction m with
  | nil => simp at h
  | cons kv m ih =>
    obtain ⟨a, b⟩ := kv
    by_cases hak : a = k
    · simp [mapHas, mapGet, hak]
    · rcases List.mem_cons.mp h with h | h
      · simp only [Prod.mk.injEq] at h
        exact absurd h.1.symm hak
      · have := ih h
        simpa [mapHas, mapGet, hak] using this

theorem mapHas_mapSet {κ ν : Type} [DecidableEq κ] (m : List (κ × ν)) (k k' : κ) (v : ν) :
    mapHas (mapSet m k v) k' = true ↔ k = k' ∨ mapHas m k' = true := by
  unfold mapHas
  rw [mapGet_mapSet]
  by_cases hk : k = k' <;> simp [hk]

theorem mapHas_foldl_mapSet (l : List Int) (init : List (Int × Unit)) (k : Int) :
    mapHas (l.foldl (fun m f => mapSet m f ()) init) k = true ↔
      mapHas init k = true ∨ k ∈ l := by
  induction l generalizing init with
  | nil => simp
  | cons f fs ih =>
    simp only [List.foldl_cons, List.mem_cons]
    rw [ih, mapHas_mapSet]
    constructor
    · rintro ((h | h) | h)
      · exact Or.inr (Or.inl h.symm)
      · exact Or.inl h
      · exact Or.inr (Or.inr h)
    · rintro (h | h | h)
      · exact Or.inl (Or.inr h)
      · exact Or.inl (Or.inl h.symm)
      · exact Or.inr h

/-- The keys of `fieldsMap` are the entries of `fields`. -/
theorem mapHas_fieldsToMap (fields : List Int) (k : Int) :
    mapHas (fieldsToMap fields) k = true ↔ k ∈ fields := by
  unfold fieldsToMap
  rw [mapHas_foldl_mapSet]
  simp [mapHas, mapGet]

theorem mem_fieldsToMap (fields : List Int) (fv : Int × Unit) (h : fv ∈ fieldsToMap fields) :
    fv.1 ∈ fields :=
  (mapHas_fieldsToMap fields fv.1).mp (mapHas_of_mem _ fv.1 fv.2 h)

/-! ## Theorems: positional specifications -/

theorem initState_fields (cfg : FreqConfig) :
    (initState cfg).fields = requestedIndices cfg
      ∧ (initState cfg).fieldsMap = fieldsToMap (requestedIndices cfg) := by
  unfold initState requestedIndices
  by_cases h : cfg.fields.length > 0
  · simp [h]
  · have h0 : cfg.fields = [] := by
      cases hf : cfg.fields with
      | nil => rfl
      | cons a l => simp [hf] at h
    simp [h0]

/-- For a positional specification the header block leaves the requested
indices as they are: the state that reaches the `checkFields` block on the
first record has them in `fields` and `fieldsMap`, and nothing is written. -/
theorem positional_before_check (cfg : FreqConfig) (s : FreqState) (record : Row)
    (hcol : cfg.colnames = []) (hne : cfg.fields ≠ [])
    (hf : s.fields = requestedIndices cfg)
    (hm : s.fieldsMap = fieldsToMap (requestedIndices cfg)) :
    ∃ s1, (if s.parseHeaderRow = true then parseHeader cfg s record else Except.ok s)
        = Except.ok s1
      ∧ s1.fieldsMap = fieldsToMap (requestedIndices cfg)
      ∧ s1.checkFields = s.checkFields ∧ s1.out = s.out
      ∧ s1.parseHeaderRow = false := by
  by_cases hp : s.parseHeaderRow = true
  · have hlen : ¬ s.fields.length = 0 := by
      rw [hf]
      unfold requestedIndices
      simpa using hne
    refine ⟨{ s with
        colnames2fileds := buildColnames2fileds record 0 []
        colnamesMap := []
        fieldsMap := fieldsToMap s.fields
        parseHeaderRow := false }, ?_, ?_, rfl, rfl, rfl⟩
    · rw [if_pos hp]
      unfold parseHeader
      simp only [hcol, buildColnamesMap, hlen, if_false]
    · simp [hf]
  · exact ⟨s, by rw [if_neg hp], hm, rfl, rfl, by simpa using hp⟩

theorem checkFieldsStep_in_range (cfg : FreqConfig) (s : FreqState) (record : Row)
    (hle : ∀ fv ∈ s.fieldsMap, fv.1 ≤ (record.length : Int)) :
    checkFieldsStep cfg s record =
      if (selectFields cfg.negativeFields s.fieldsMap record.length).length = 0 then
        Except.error FreqError.noFieldsMatched
      else
        Except.ok { s with
          fields := selectFields cfg.negativeFields s.fieldsMap record.length
          items := List.replicate
            (selectFields cfg.negativeFields s.fieldsMap record.length).length ""
          checkFields := false } := by
  have hnone : s.fieldsMap.find? (fun fv => decide (fv.1 > (record.length : Int))) = none := by
    rw [List.find?_eq_none]
    intro fv hfv
    have := hle fv hfv
    simp only [gt_iff_lt, decide_eq_true_eq, not_lt]
    exact this
  unfold checkFieldsStep
  rw [hnone]

theorem checkFieldsStep_out_of_range (cfg : FreqConfig) (s : FreqState) (record : Row)
    (hgt : ∃ fv ∈ s.fieldsMap, fv.1 > (record.length : Int)) :
    ∃ field, checkFieldsStep cfg s record
        = Except.error (FreqError.fieldOutOfRange field record.length)
      ∧ (field, ()) ∈ s.fieldsMap ∧ field > (record.length : Int) := by
  cases hfind : s.fieldsMap.find? (fun fv => decide (fv.1 > (record.length : Int))) with
  | none =>
    rw [List.find?_eq_none] at hfind
    obtain ⟨fv, hfv, hbig⟩ := hgt
    exact absurd (by simpa using hbig) (hfind fv hfv)
  | some fv =>
    refine ⟨fv.1, ?_, List.mem_of_find?_eq_some hfind, ?_⟩
    · unfold checkFieldsStep
      rw [hfind]
    · have := List.find?_some hfind
      simpa using this

/-- C5 (amended): for a purely positional specification whose signed integers
all have absolute value between 1 and the width `w` of the first row,
resolution succeeds and gives, with include sign, the ascending list of
exactly the requested indices, and, with exclude sign, the ascending list of
exactly the indices in `1..w` that were not requested, provided at least one
index of `1..w` is not requested. -/
theorem resolveFields_positional (cfg : FreqConfig) (record : Row)
    (hcol : cfg.colnames = []) (hne : cfg.fields ≠ [])
    (hrange : ∀ f ∈ cfg.fields,
      if cfg.negativeFields = true then 1 ≤ -f ∧ -f ≤ (record.length : Int)
      else 1 ≤ f ∧ f ≤ (record.length : Int))
    (hleft : cfg.negativeFields = true →
      ∃ i : Int, 1 ≤ i ∧ i ≤ (record.length : Int) ∧ -i ∉ cfg.fields) :
    ∃ L, resolveFields cfg record = Except.ok L
      ∧ IsAscendingListOf L (fun i =>
          if cfg.negativeFields = true then
            1 ≤ i ∧ i ≤ (record.length : Int) ∧ -i ∉ cfg.fields
          else i ∈ cfg.fields) := by
  obtain ⟨hf, hm⟩ := initState_fields cfg
  obtain ⟨s1, hs1, hm1, _, _, _⟩ :=
    positional_before_check cfg (initState cfg) record hcol hne hf hm
  have hreq : ∀ i : Int, i ∈ requestedIndices cfg ↔
      (if cfg.negativeFields = true then -i ∈ cfg.fields else i ∈ cfg.fields) := by
    intro i
    unfold requestedIndices
    simp only [List.mem_map]
    by_cases hn : cfg.negativeFields = true
    · simp only [hn, if_true]
      constructor
      · rintro ⟨f, hfm, rfl⟩
        simpa using hfm
      · intro h
        exact ⟨-i, h, by simp⟩
    · simp [hn]
  have hle : ∀ fv ∈ s1.fieldsMap, fv.1 ≤ (record.length : Int) := by
    intro fv hfv
    rw [hm1] at hfv
    have hmem := (hreq fv.1).mp (mem_fieldsToMap _ fv hfv)
    by_cases hn : cfg.negativeFields = true
    · rw [if_pos hn] at hmem
      have := hrange _ hmem
      rw [if_pos hn] at this
      omega
    · rw [if_neg hn] at hmem
      have := hrange _ hmem
      rw [if_neg hn] at this
      exact this.2
  have hmemL : ∀ i : Int, i ∈ selectFields cfg.negativeFields s1.fieldsMap record.length ↔
      (if cfg.negativeFields = true then
        1 ≤ i ∧ i ≤ (record.length : Int) ∧ -i ∉ cfg.fields
      else i ∈ cfg.fields) := by
    intro i
    rw [mem_selectFields, hm1]
    have hk := mapHas_fieldsToMap (requestedIndices cfg) i
    rw [hreq i] at hk
    by_cases hn : cfg.negativeFields = true
    · simp only [hn, if_true, Bool.not_true] at hk ⊢
      rw [← hk]
      simp
    · simp only [Bool.not_eq_true] at hn
      simp only [hn, Bool.false_eq_true, if_false, Bool.not_false] at hk ⊢
      rw [hk]
      constructor
      · exact fun h => h.2.2
      · intro h
        have := hrange i h
        simp only [hn, Bool.false_eq_true, if_false] at this
        exact ⟨this.1, this.2, h⟩
  have hnonempty : (selectFields cfg.negativeFields s1.fieldsMap record.length).length ≠ 0 := by
    intro h0
    have hnil := List.length_eq_zero.mp h0
    by_cases hn : cfg.negativeFields = true
    · obtain ⟨i, h1, h2, h3⟩ := hleft hn
      have := (hmemL i).mpr (by rw [if_pos hn]; exact ⟨h1, h2, h3⟩)
      rw [hnil] at this
      simp at this
    · obtain ⟨f, hfmem⟩ := List.exists_mem_of_ne_nil _ hne
      have := (hmemL f).mpr (by rw [if_neg hn]; exact hfmem)
      rw [hnil] at this
      simp at this
  refine ⟨selectFields cfg.negativeFields s1.fieldsMap record.length, ?_,
    selectFields_pairwise _ _ _, hmemL⟩
  unfold resolveFields
  dsimp only
  rw [hs1]
  dsimp only
  rw [checkFieldsStep_in_range cfg s1 record hle, if_neg hnonempty]

theorem resolveFields_positional_witness :
    (exampleConfig [-2] [] true true false).colnames = []
    ∧ (exampleConfig [-2] [] true true false).fields ≠ []
    ∧ (∀ f ∈ (exampleConfig [-2] [] true true false).fields,
        if (exampleConfig [-2] [] true true false).negativeFields = true then
          1 ≤ -f ∧ -f ≤ ((["a", "b", "c"] : Row).length : Int)
        else 1 ≤ f ∧ f ≤ ((["a", "b", "c"] : Row).length : Int))
    ∧ ((exampleConfig [-2] [] true true false).negativeFields = true →
        ∃ i : Int, 1 ≤ i ∧ i ≤ ((["a", "b", "c"] : Row).length : Int)
          ∧ -i ∉ (exampleConfig [-2] [] true true false).fields)
    ∧ resolveFields (exampleConfig [-2] [] true true false) ["a", "b", "c"]
        = Except.ok [1, 3]
    ∧ ∃ L, resolveFields (exampleConfig [-2] [] true true false) ["a", "b", "c"]
          = Except.ok L
        ∧ IsAscendingListOf L (fun i =>
            if (exampleConfig [-2] [] true true false).negativeFields = true then
              1 ≤ i ∧ i ≤ ((["a", "b", "c"] : Row).length : Int)
                ∧ -i ∉ (exampleConfig [-2] [] true true false).fields
            else i ∈ (exampleConfig [-2] [] true true false).fields) :=
  ⟨rfl, by decide, by decide, fun _ => ⟨1, by decide⟩, by decide,
    resolveFields_positional (exampleConfig [-2] [] true true false) ["a", "b", "c"]
      rfl (by decide) (by decide) (fun _ => ⟨1, by decide⟩)⟩

/-- C5 as stated fails: with exclude sign and every column of the first row
requested (here the single column of a one-column row, `-f -1`), there is no
resolved field list; the run is aborted with `no fields matched`. -/
theorem resolveFields_positional_exclude_all :
    (∀ f ∈ (exampleConfig [-1] [] true false false).fields,
        1 ≤ -f ∧ -f ≤ ((["a"] : Row).length : Int))
    ∧ resolveFields (exampleConfig [-1] [] true false false) ["a"]
        = Except.error FreqError.noFieldsMatched :=
  ⟨by decide, by decide⟩

/-! ## Theorems: resolution by name -/

theorem mapGet_buildColnames2fileds_of_not_mem (l : List String) (i : Nat)
    (m : List (String × Int)) (k : String) (hk : k ∉ l) :
    mapGet (buildColnames2fileds l i m) k = mapGet m k := by
  induction l generalizing i m with
  | nil => rfl
  | cons col rest ih =>
    simp only [List.mem_cons, not_or] at hk
    simp only [buildColnames2fileds]
    rw [ih _ _ hk.2, mapGet_mapSet, if_neg (fun h => hk.1 h.symm)]

/-- In a header without repeated names each name is mapped to its own
(1-based) position. -/
theorem mapGet_buildColnames2fileds (l : List String) (i : Nat) (m : List (String × Int))
    (hnd : l.Nodup) (j : Nat) (col : String) (hj : l[j]? = some col) :
    mapGet (buildColnames2fileds l i m) col = some ((i : Int) + j + 1) := by
  induction l generalizing i m j with
  | nil => simp at hj
  | cons c rest ih =>
    obtain ⟨hc, hrest⟩ := List.nodup_cons.mp hnd
    simp only [buildColnames2fileds]
    cases j with
    | zero =>
      simp only [List.getElem?_cons_zero, Option.some.injEq] at hj
      subst hj
      rw [mapGet_buildColnames2fileds_of_not_mem _ _ _ _ hc, mapGet_mapSet]
      simp
    | succ j' =>
      simp only [List.getElem?_cons_succ] at hj
      rw [ih (i + 1) _ hrest j' hj]
      push_cast
      congr 1
      omega

theorem mapHas_buildColnames2fileds (l : List String) (i : Nat) (m : List (String × Int))
    (k : String) :
    mapHas (buildColnames2fileds l i m) k = true ↔ mapHas m k = true ∨ k ∈ l := by
  induction l generalizing i m with
  | nil => simp [buildColnames2fileds]
  | cons col rest ih =>
    simp only [buildColnames2fileds, List.mem_cons]
    rw [ih, mapHas_mapSet]
    constructor
    · rintro ((h | h) | h)
      · exact Or.inr (Or.inl h.symm)
      · exact Or.inl h
      · exact Or.inr (Or.inr h)
    · rintro (h | h | h)
      · exact Or.inl (Or.inr h)
      · exact Or.inl (Or.inl h.symm)
      · exact Or.inr h

theorem mem_mapSet {κ ν : Type} [DecidableEq κ] (m : List (κ × ν)) (k : κ) (v : ν)
    (kv : κ × ν) (h : kv ∈ mapSet m k v) : kv = (k, v) ∨ kv ∈ m := by
  induction m with
  | nil =>
    simp only [mapSet, List.mem_singleton] at h
    exact Or.inl h
  | cons ab m ih =>
    obtain ⟨a, b⟩ := ab
    by_cases hak : a = k
    · simp only [mapSet, hak, if_true, List.mem_cons] at h
      rcases h with h | h
      · exact Or.inl h
      · exact Or.inr (List.mem_cons_of_mem _ h)
    · simp only [mapSet, hak, if_false, List.mem_cons] at h
      rcases h with h | h
      · exact Or.inr (by simp [h])
      · rcases ih h with h | h
        · exact Or.inl h
        · exact Or.inr (List.mem_cons_of_mem _ h)

/-- With include sign, when every name is in the header (or the mode is
fuzzy), the loop over `colnames` does not fail and leaves a map whose keys are
the names, each with its own matcher. -/
theorem buildColnamesMap_include (cfg : FreqConfig) (colnames2fileds : List (String × Int))
    (colnames : List String) (init : List (String × (String → Bool)))
    (hsign : cfg.negativeFields = false)
    (hpresent : cfg.fuzzyFields = false → ∀ t ∈ colnames, mapHas colnames2fileds t = true)
    (hinit : ∀ kv ∈ init, kv.2 = cfg.fuzzyField2Regexp kv.1) :
    ∃ m, buildColnamesMap cfg colnames2fileds colnames init = Except.ok m
      ∧ (∀ kv ∈ m, kv.2 = cfg.fuzzyField2Regexp kv.1)
      ∧ ∀ k, mapHas m k = true ↔ mapHas init k = true ∨ k ∈ colnames := by
  induction colnames generalizing init with
  | nil => exact ⟨init, rfl, hinit, by simp⟩
  | cons col rest ih =>
    have hcheck : (!cfg.fuzzyFields && !mapHas colnames2fileds col) = false := by
      cases hfz : cfg.fuzzyFields with
      | true => simp
      | false => simp [hpresent hfz col (List.mem_cons_self _ _)]
    have hinit2 : ∀ kv ∈ mapSet init col (cfg.fuzzyField2Regexp col),
        kv.2 = cfg.fuzzyField2Regexp kv.1 := by
      intro kv hkv
      rcases mem_mapSet _ _ _ _ hkv with h | h
      · rw [h]
      · exact hinit kv h
    obtain ⟨m, hm, hval, hkeys⟩ := ih (mapSet init col (cfg.fuzzyField2Regexp col))
      (fun hfz t ht => hpresent hfz t (List.mem_cons_of_mem _ ht)) hinit2
    refine ⟨m, ?_, hval, ?_⟩
    · simp only [buildColnamesMap, hcheck, hsign, Bool.false_eq_true, if_false]
      exact hm
    · intro k
      rw [hkeys, mapHas_mapSet, List.mem_cons]
      constructor
      · rintro ((h | h) | h)
        · exact Or.inr (Or.inl h.symm)
        · exact Or.inl h
        · exact Or.inr (Or.inr h)
      · rintro (h | h | h)
        · exact Or.inl (Or.inr h)
        · exact Or.inl (Or.inl h.symm)
        · exact Or.inr h

/-- The test made by the loop over the header cells is the match test of the
spec, for a map whose keys are `names`, each with its own matcher. -/
theorem nameMatches_eq (cfg : FreqConfig) (m : List (String × (String → Bool)))
    (names : List String) (col : String)
    (hval : ∀ kv ∈ m, kv.2 = cfg.fuzzyField2Regexp kv.1)
    (hkeys : ∀ k, mapHas m k = true ↔ k ∈ names) :
    nameMatches cfg m col = headerCellMatches cfg names col := by
  unfold nameMatches headerCellMatches
  cases hfz : cfg.fuzzyFields with
  | false =>
    simp only [Bool.false_eq_true, if_false]
    rw [Bool.eq_iff_iff, hkeys]
    simp
  | true =>
    simp only [if_true]
    rw [Bool.eq_iff_iff, List.any_eq_true, List.any_eq_true]
    constructor
    · rintro ⟨kv, hkv, hre⟩
      refine ⟨kv.1, (hkeys kv.1).mp (mapHas_of_mem m kv.1 kv.2 hkv), ?_⟩
      rw [← hval kv hkv]
      exact hre
    · rintro ⟨t, ht, hre⟩
      have hhas := (hkeys t).mpr ht
      unfold mapHas at hhas
      obtain ⟨v, hv⟩ := Option.isSome_iff_exists.mp hhas
      have hmem := mem_of_mapGet m t v hv
      refine ⟨(t, v), hmem, ?_⟩
      have := hval (t, v) hmem
      simp only at this
      rw [this]
      exact hre

theorem fieldsByName_eq (cfg : FreqConfig) (colnamesMap : List (String × (String → Bool)))
    (colnames2fileds : List (String × Int)) (record : Row) :
    fieldsByName cfg colnamesMap colnames2fileds record
      = (record.filter (nameMatches cfg colnamesMap)).map
          (fun col => (mapGet colnames2fileds col).getD 0) := by
  unfold fieldsByName
  rw [foldl_append_if]
  simp

/-- A name is mapped to the (1-based) position of its last occurrence in the
header. -/
theorem mapGet_buildColnames2fileds_last (l : List String) (i : Nat)
    (m : List (String × Int)) (j : Nat) (col : String) (hj : l[j]? = some col)
    (hlast : col ∉ l.drop (j + 1)) :
    mapGet (buildColnames2fileds l i m) col = some ((i : Int) + j + 1) := by
  induction l generalizing i m j with
  | nil => simp at hj
  | cons c rest ih =>
    simp only [buildColnames2fileds]
    cases j with
    | zero =>
      simp only [List.getElem?_cons_zero, Option.some.injEq] at hj
      subst hj
      simp only [Nat.zero_add, List.drop_succ_cons, List.drop_zero] at hlast
      rw [mapGet_buildColnames2fileds_of_not_mem _ _ _ _ hlast, mapGet_mapSet]
      simp
    | succ j' =>
      simp only [List.getElem?_cons_succ] at hj
      simp only [List.drop_succ_cons] at hlast
      rw [ih (i + 1) _ j' hj hlast]
      push_cast
      congr 1
      omega

/-- C6 (amended): for include-sign by-name resolution (non-fuzzy with every
token present in the header, or fuzzy) over a header row in which no matching
name occurs in more than one column: when at least one header cell matches,
resolution succeeds with the ascending list of exactly those 1-based column
indices whose header cell matches (it equals one of the tokens in non-fuzzy
mode, is accepted by the matcher of at least one token in fuzzy mode); when no
header cell matches, the run is aborted with `no fields matched`. -/
theorem resolveFields_by_name_include (cfg : FreqConfig) (header : Row)
    (hsign : cfg.negativeFields = false) (hfields : cfg.fields = [])
    (hhdr : cfg.needParseHeaderRow = true)
    (hpresent : cfg.fuzzyFields = false → ∀ t ∈ cfg.colnames, t ∈ header)
    (hrep : ∀ (j1 j2 : Nat) (cell : String), header[j1]? = some cell →
      header[j2]? = some cell → headerCellMatches cfg cfg.colnames cell = true → j1 = j2) :
    ((∃ cell ∈ header, headerCellMatches cfg cfg.colnames cell = true) →
      ∃ L, resolveFields cfg header = Except.ok L
        ∧ IsAscendingListOf L (fun i =>
            1 ≤ i ∧ i ≤ (header.length : Int)
              ∧ headerCellMatches cfg cfg.colnames (header.getD (i - 1).toNat "") = true))
    ∧ ((¬ ∃ cell ∈ header, headerCellMatches cfg cfg.colnames cell = true) →
      resolveFields cfg header = Except.error FreqError.noFieldsMatched) := by
  have hc2f : ∀ k, mapHas (buildColnames2fileds header 0 []) k = true ↔ k ∈ header := by
    intro k
    rw [mapHas_buildColnames2fileds]
    simp [mapHas, mapGet]
  obtain ⟨m, hm, hval, hkeys⟩ := buildColnamesMap_include cfg
    (buildColnames2fileds header 0 []) cfg.colnames [] hsign
    (fun hfz t ht => (hc2f t).mpr (hpresent hfz t ht)) (by simp)
  have hkeys2 : ∀ k, mapHas m k = true ↔ k ∈ cfg.colnames := by
    intro k
    rw [hkeys]
    simp [mapHas, mapGet]
  have hfun : nameMatches cfg m = headerCellMatches cfg cfg.colnames :=
    funext (fun col => nameMatches_eq cfg m cfg.colnames col hval hkeys2)
  have hinit : (initState cfg).fields = [] := by
    rw [(initState_fields cfg).1]
    simp [requestedIndices, hfields]
  have hpar : parseHeader cfg (initState cfg) header
      = Except.ok { (initState cfg) with
          colnames2fileds := buildColnames2fileds header 0 []
          colnamesMap := m
          fields := fieldsByName cfg m (buildColnames2fileds header 0 []) header
          fieldsMap := fieldsToMap
            (fieldsByName cfg m (buildColnames2fileds header 0 []) header)
          parseHeaderRow := false } := by
    unfold parseHeader
    simp only [hm, hinit, List.length_nil, if_true]
  have hidx : ∀ (j : Nat) (col : String), header[j]? = some col →
      headerCellMatches cfg cfg.colnames col = true →
      mapGet (buildColnames2fileds header 0 []) col = some (((0 : Nat) : Int) + j + 1) := by
    intro j col hj hmt
    apply mapGet_buildColnames2fileds_last header 0 [] j col hj
    intro hlater
    obtain ⟨n, hn⟩ := List.mem_iff_getElem?.mp hlater
    rw [List.getElem?_drop] at hn
    have := hrep j (j + 1 + n) col hj hn hmt
    omega
  have hkey : ∀ i : Int,
      mapHas (fieldsToMap (fieldsByName cfg m (buildColnames2fileds header 0 []) header)) i
        = true ↔
      1 ≤ i ∧ i ≤ (header.length : Int)
        ∧ headerCellMatches cfg cfg.colnames (header.getD (i - 1).toNat "") = true := by
    intro i
    rw [mapHas_fieldsToMap, fieldsByName_eq, hfun]
    simp only [List.mem_map, List.mem_filter]
    constructor
    · rintro ⟨col, ⟨hcol, hmt⟩, hi⟩
      obtain ⟨j, hj⟩ := List.mem_iff_getElem?.mp hcol
      rw [hidx j col hj hmt] at hi
      simp only [Option.getD_some] at hi
      obtain ⟨hjlt, _⟩ := List.getElem?_eq_some.mp hj
      have hji : (i - 1).toNat = j := by omega
      refine ⟨by omega, by omega, ?_⟩
      rw [hji, List.getD_eq_getElem?_getD, hj]
      exact hmt
    · rintro ⟨h1, h2, hmt⟩
      have hjlt : (i - 1).toNat < header.length := by omega
      have hj : header[(i - 1).toNat]? = some (header[(i - 1).toNat]) :=
        List.getElem?_eq_getElem hjlt
      rw [List.getD_eq_getElem?_getD, hj] at hmt
      refine ⟨header[(i - 1).toNat], ⟨List.getElem_mem hjlt, hmt⟩, ?_⟩
      rw [hidx _ _ hj hmt]
      simp only [Option.getD_some]
      omega
  have hle : ∀ fv ∈ fieldsToMap
      (fieldsByName cfg m (buildColnames2fileds header 0 []) header),
      fv.1 ≤ (header.length : Int) := by
    intro fv hfv
    exact ((hkey fv.1).mp (mapHas_of_mem _ fv.1 fv.2 hfv)).2.1
  have hmemL : ∀ i : Int,
      i ∈ selectFields cfg.negativeFields
        (fieldsToMap (fieldsByName cfg m (buildColnames2fileds header 0 []) header))
        header.length ↔
      1 ≤ i ∧ i ≤ (header.length : Int)
        ∧ headerCellMatches cfg cfg.colnames (header.getD (i - 1).toNat "") = true := by
    intro i
    rw [mem_selectFields, hsign, Bool.not_false, hkey]
    tauto
  have hp : (initState cfg).parseHeaderRow = true := by simp [initState, hhdr]
  have hres : resolveFields cfg header =
      if (selectFields cfg.negativeFields
          (fieldsToMap (fieldsByName cfg m (buildColnames2fileds header 0 []) header))
          header.length).length = 0 then
        Except.error FreqError.noFieldsMatched
      else
        Except.ok (selectFields cfg.negativeFields
          (fieldsToMap (fieldsByName cfg m (buildColnames2fileds header 0 []) header))
          header.length) := by
    unfold resolveFields
    dsimp only
    rw [if_pos hp, hpar]
    dsimp only
    rw [checkFieldsStep_in_range cfg _ header hle]
    dsimp only
    split_ifs <;> rfl
  constructor
  · intro hmatch
    have hnonempty : (selectFields cfg.negativeFields
        (fieldsToMap (fieldsByName cfg m (buildColnames2fileds header 0 []) header))
        header.length).length ≠ 0 := by
      intro h0
      have hnil := List.length_eq_zero.mp h0
      obtain ⟨cell, hcell, hmt⟩ := hmatch
      obtain ⟨j, hj⟩ := List.mem_iff_getElem?.mp hcell
      obtain ⟨hjlt, _⟩ := List.getElem?_eq_some.mp hj
      have hin := (hmemL ((j : Int) + 1)).mpr ⟨by omega, by omega, by
        have hji : ((j : Int) + 1 - 1).toNat = j := by omega
        rw [hji, List.getD_eq_getElem?_getD, hj]
        exact hmt⟩
      rw [hnil] at hin
      simp at hin
    exact ⟨_, by rw [hres, if_neg hnonempty], selectFields_pairwise _ _ _, hmemL⟩
  · intro hnone
    have hnil : selectFields cfg.negativeFields
        (fieldsToMap (fieldsByName cfg m (buildColnames2fileds header 0 []) header))
        header.length = [] := by
      rw [List.eq_nil_iff_forall_not_mem]
      intro i hi
      obtain ⟨h1, h2, hmt⟩ := (hmemL i).mp hi
      have hjlt : (i - 1).toNat < header.length := by omega
      have hj : header[(i - 1).toNat]? = some (header[(i - 1).toNat]) :=
        List.getElem?_eq_getElem hjlt
      rw [List.getD_eq_getElem?_getD, hj] at hmt
      exact hnone ⟨header[(i - 1).toNat], List.getElem_mem hjlt, hmt⟩
    rw [hres, hnil]
    rfl

theorem resolveFields_by_name_include_witness :
    (exampleConfig [] ["id"] false true false).negativeFields = false
    ∧ (exampleConfig [] ["id"] false true false).fields = []
    ∧ (exampleConfig [] ["id"] false true false).needParseHeaderRow = true
    ∧ ((exampleConfig [] ["id"] false true false).fuzzyFields = false →
        ∀ t ∈ (exampleConfig [] ["id"] false true false).colnames,
          t ∈ (["id", "x", "x"] : Row))
    ∧ (∀ (j1 j2 : Nat) (cell : String), (["id", "x", "x"] : Row)[j1]? = some cell →
        (["id", "x", "x"] : Row)[j2]? = some cell →
        headerCellMatches (exampleConfig [] ["id"] false true false)
          (exampleConfig [] ["id"] false true false).colnames cell = true → j1 = j2)
    ∧ (∃ cell ∈ (["id", "x", "x"] : Row),
        headerCellMatches (exampleConfig [] ["id"] false true false)
          (exampleConfig [] ["id"] false true false).colnames cell = true)
    ∧ resolveFields (exampleConfig [] ["id"] false true false) ["id", "x", "x"]
        = Except.ok [1]
    ∧ resolveFields (exampleConfig [] ["*name"] false true true) ["firstname", "age"]
        = Except.ok [1]
    ∧ (((∃ cell ∈ (["id", "x", "x"] : Row),
          headerCellMatches (exampleConfig [] ["id"] false true false)
            (exampleConfig [] ["id"] false true false).colnames cell = true) →
        ∃ L, resolveFields (exampleConfig [] ["id"] false true false) ["id", "x", "x"]
            = Except.ok L
          ∧ IsAscendingListOf L (fun i =>
              1 ≤ i ∧ i ≤ ((["id", "x", "x"] : Row).length : Int)
                ∧ headerCellMatches (exampleConfig [] ["id"] false true false)
                    (exampleConfig [] ["id"] false true false).colnames
                    ((["id", "x", "x"] : Row).getD (i - 1).toNat "") = true))
      ∧ ((¬ ∃ cell ∈ (["id", "x", "x"] : Row),
          headerCellMatches (exampleConfig [] ["id"] false true false)
            (exampleConfig [] ["id"] false true false).colnames cell = true) →
        resolveFields (exampleConfig [] ["id"] false true false) ["id", "x", "x"]
          = Except.error FreqError.noFieldsMatched)) := by
  have hrep : ∀ (j1 j2 : Nat) (cell : String), (["id", "x", "x"] : Row)[j1]? = some cell →
      (["id", "x", "x"] : Row)[j2]? = some cell →
      headerCellMatches (exampleConfig [] ["id"] false true false)
        (exampleConfig [] ["id"] false true false).colnames cell = true → j1 = j2 := by
    intro j1 j2 cell h1 h2 hm
    have hcell : cell = "id" := by
      have hmem : cell ∈ (["id", "x", "x"] : Row) := List.mem_iff_getElem?.mpr ⟨j1, h1⟩
      simp only [List.mem_cons, List.mem_singleton, List.not_mem_nil, or_false] at hmem
      rcases hmem with h | h | h
      · exact h
      · subst h
        exact absurd hm (by decide)
      · subst h
        exact absurd hm (by decide)
    subst hcell
    have e1 : j1 = 0 := by
      match j1, h1 with
      | 0, _ => rfl
      | 1, h => exact absurd h (by decide)
      | 2, h => exact absurd h (by decide)
      | n + 3, h => simp at h
    have e2 : j2 = 0 := by
      match j2, h2 with
      | 0, _ => rfl
      | 1, h => exact absurd h (by decide)
      | 2, h => exact absurd h (by decide)
      | n + 3, h => simp at h
    rw [e1, e2]
  exact ⟨rfl, rfl, rfl, by decide, hrep, ⟨"id", by decide, by decide⟩, by decide, by decide,
    resolveFields_by_name_include (exampleConfig [] ["id"] false true false)
      ["id", "x", "x"] rfl rfl rfl (by decide) hrep⟩

/-- C6 as stated fails in two ways. A fuzzy pattern that matches no header
cell gives no (empty) field list: the run is aborted with `no fields matched`.
And when a matching name occurs twice in the header only the last of its
columns is selected, although both cells match. -/
theorem resolveFields_by_name_include_counterexample :
    resolveFields (exampleConfig [] ["*name"] false true true) ["id", "age"]
        = Except.error FreqError.noFieldsMatched
    ∧ resolveFields (exampleConfig [] ["name"] false true false) ["name", "name", "age"]
        = Except.ok [2]
    ∧ headerCellMatches (exampleConfig [] ["name"] false true false) ["name"]
        ((["name", "name", "age"] : Row).getD 0 "") = true :=
  ⟨by decide, by decide, by decide⟩

/-! ## Theorems: where the code departs from the claims -/

/-- C7: with exclude sign the existence check looks the raw token up, negation
marker included. Header `a,b` with `-f -a` (non-fuzzy): the named column `a`
is in the header, yet the run is aborted with `column "-a" not existed`,
before anything is written. -/
theorem exclude_name_checked_with_marker :
    dropFirst "-a" = Except.ok "a"
    ∧ "a" ∈ (["a", "b"] : Row)
    ∧ freqIngest (exampleConfig [] ["-a"] true true false) 2
        { rows := [["a", "b"], ["1", "2"]], err := none }
      = Except.error { err := FreqError.columnNotExisted "-a", out := [] } :=
  ⟨by decide, by decide, rfl⟩

/-- C8: exclude-sign non-fuzzy resolution over header `id,name,age` with
`-f -name`: every named column exists and the columns that do not match are
1 and 3, yet resolution fails with `column "-name" not existed`. -/
theorem exclude_by_name_resolution_fails :
    dropFirst "-name" = Except.ok "name"
    ∧ "name" ∈ (["id", "name", "age"] : Row)
    ∧ ([1, 2, 3] : List Int).filter
        (fun i => !headerCellMatches (exampleConfig [] ["-name"] true true false) ["name"]
          ((["id", "name", "age"] : Row).getD (i - 1).toNat "")) = [1, 3]
    ∧ resolveFields (exampleConfig [] ["-name"] true true false) ["id", "name", "age"]
      = Except.error (FreqError.columnNotExisted "-name") :=
  ⟨by decide, by decide, by decide, by decide⟩

/-- C10: two rows whose selected tuples differ get the same key when a cell
holds the separator: `("a_shenwei356_", "b")` and `("a", "_shenwei356_b")`. -/
theorem aggregationKey_collision :
    aggregationKey [1, 2] ["a_shenwei356_", "b"]
        = Except.ok "a_shenwei356__shenwei356_b"
    ∧ aggregationKey [1, 2] ["a", "_shenwei356_b"]
        = Except.ok "a_shenwei356__shenwei356_b"
    ∧ selectedCells [1, 2] ["a_shenwei356_", "b"]
        ≠ selectedCells [1, 2] ["a", "_shenwei356_b"] :=
  ⟨by decide, by decide, by decide⟩

/-- C2: the two rows `("a_shenwei356_", "b")` and `("a", "_shenwei356_b")` are
counted under one key: the table maps the key of the first tuple to 2,
although one row only holds that tuple. -/
theorem counter_merges_distinct_tuples :
    Except.map FreqState.counter
        (freqIngest (exampleConfig [1, 2] [] false false false) 2
          { rows := [["a_shenwei356_", "b"], ["a", "_shenwei356_b"]], err := none })
      = Except.ok [("a_shenwei356__shenwei356_b", 2)]
    ∧ aggregationKey [1, 2] ["a_shenwei356_", "b"]
        = Except.ok "a_shenwei356__shenwei356_b"
    ∧ (([["a_shenwei356_", "b"], ["a", "_shenwei356_b"]] : List Row).filter
        (fun row => decide (selectedCells [1, 2] row = ["a_shenwei356_", "b"]))).length = 1 :=
  ⟨by decide, by decide, by decide⟩

/-- C9 as stated fails in two ways. When the reader has a meta line, the `sep=`
line is written at the start of the first chunk, before the fields are
checked: first row of width 3 and `-f 5`, the error names index 5 and width 3
and the `sep=` line has been written. And when a read error reaches the
consumer in the first chunk (chunk size 2, one row read, then the error), the
run is aborted on that error before any field is checked, although the input
is not empty and index 5 exceeds the width 3 of its first row. -/
theorem fieldOutOfRange_after_meta_line :
    freqIngest { exampleConfig [5] [] false true false with metaLine := "sep=," } 2
        { rows := [["a", "b", "c"], ["1", "2", "3"]], err := none }
      = Except.error
          { err := FreqError.fieldOutOfRange 5 3, out := [Output.text "sep=,\n"] }
    ∧ freqIngest (exampleConfig [5] [] false true false) 2
        { rows := [["a", "b", "c"]], err := some "bad" }
      = Except.error { err := FreqError.chunkErr "bad", out := [] } :=
  ⟨rfl, rfl⟩

/-! ## Theorems: the run after the first record -/

theorem runLoop_err_none (chunkSize : Nat) (rows chunkData : List Row) (id i : Nat) :
    ∀ c ∈ runLoop chunkSize none rows chunkData id i, c.Err = none := by
  induction rows generalizing chunkData id i with
  | nil => simp [runLoop]
  | cons record rest ih =>
    simp only [runLoop]
    split
    · intro c hc
      rcases List.mem_cons.mp hc with hc | hc
      · rw [hc]
      · exact ih _ _ _ c hc
    · exact ih _ _ _

/-- Over a stream that is not empty and ends without error, the first chunk
carries no error and starts with the first record. -/
theorem Run_first_chunk (chunkSize : Nat) (row : Row) (rest : List Row)
    (hsize : 1 ≤ chunkSize) :
    ∃ c cs d, Run chunkSize { rows := row :: rest, err := none } = c :: cs
      ∧ c.Err = none ∧ c.Data = row :: d := by
  have hne : Run chunkSize { rows := row :: rest, err := none } ≠ [] :=
    runLoop_ne_nil _ _ _ _ _ _
  have hdata := Run_data chunkSize { rows := row :: rest, err := none } hsize
  have hsizes : ∀ c ∈ (Run chunkSize { rows := row :: rest, err := none }).dropLast,
      c.Data.length = chunkSize :=
    runLoop_sizes chunkSize none (row :: rest) _ 0 0 (by simp) (by omega)
  have herr : ∀ c ∈ Run chunkSize { rows := row :: rest, err := none }, c.Err = none :=
    runLoop_err_none _ _ _ _ _
  cases hrun : Run chunkSize { rows := row :: rest, err := none } with
  | nil => exact absurd hrun hne
  | cons c cs =>
    rw [hrun] at hdata hsizes herr
    simp only [List.map_cons, List.flatten_cons] at hdata
    have he : c.Err = none := herr c (List.mem_cons_self _ _)
    cases hd : c.Data with
    | cons x d =>
      rw [hd] at hdata
      simp only [List.cons_append, List.cons.injEq] at hdata
      exact ⟨c, cs, d, rfl, he, by rw [← hdata.1, hd]⟩
    | nil =>
      exfalso
      cases cs with
      | nil =>
        rw [hd] at hdata
        simp at hdata
      | cons c2 cs2 =>
        have := hsizes c (by simp [List.dropLast])
        rw [hd] at this
        simp only [List.length_nil] at this
        omega

theorem fillItems_error (record : Row) (fields : List Int) (i : Nat) (items : List String)
    (e : FreqError) (h : fillItems record fields i items = Except.error e) :
    e = FreqError.indexPanic := by
  induction fields generalizing i items with
  | nil => simp [fillItems] at h
  | cons f fs ih =>
    simp only [fillItems] at h
    split at h
    · simp only [Except.error.injEq] at h
      exact h.symm
    · split at h
      · simp only [Except.error.injEq] at h
        exact h.symm
      · split at h
        · simp only [Except.error.injEq] at h
          exact h.symm
        · exact ih _ _ h

theorem countRecord_error (s : FreqState) (record : Row) (e : FreqError)
    (h : countRecord s record = Except.error e) : e = FreqError.indexPanic := by
  unfold countRecord at h
  split at h
  · next e1 he1 =>
    simp only [Except.error.injEq] at h
    rw [← h]
    exact fillItems_error _ _ _ _ _ he1
  · split at h <;> simp at h

theorem countRecord_keeps (s s1 : FreqState) (record : Row)
    (h : countRecord s record = Except.ok s1) :
    s1.fields = s.fields ∧ s1.parseHeaderRow = s.parseHeaderRow
      ∧ s1.checkFields = s.checkFields := by
  unfold countRecord at h
  split at h
  · simp at h
  · split at h
    · simp only [Except.ok.injEq] at h
      subst h
      simp
    · simp only [Except.ok.injEq] at h
      subst h
      simp

/-- Once the header has been parsed and the fields have been checked, a record
can only fail at cell access, and it leaves the field list as it is. -/
theorem processRecord_later (cfg : FreqConfig) (s : FreqState) (record : Row)
    (hp : s.parseHeaderRow = false) (hc : s.checkFields = false) :
    (∀ e, processRecord cfg s record = Except.error e → e = FreqError.indexPanic)
    ∧ ∀ s1, processRecord cfg s record = Except.ok s1 →
        s1.fields = s.fields ∧ s1.parseHeaderRow = false ∧ s1.checkFields = false := by
  have hrec : processRecord cfg s record = countRecord s record := by
    unfold processRecord
    simp [hp, hc]
  rw [hrec]
  refine ⟨fun e he => countRecord_error s record e he, ?_⟩
  intro s1 h1
  obtain ⟨h2, h3, h4⟩ := countRecord_keeps s s1 record h1
  exact ⟨h2, by rw [h3, hp], by rw [h4, hc]⟩

theorem processRecords_later (cfg : FreqConfig) (s : FreqState) (rows : List Row)
    (hp : s.parseHeaderRow = false) (hc : s.checkFields = false) :
    (∀ f, processRecords cfg s rows = Except.error f → f.err = FreqError.indexPanic)
    ∧ ∀ s1, processRecords cfg s rows = Except.ok s1 →
        s1.fields = s.fields ∧ s1.parseHeaderRow = false ∧ s1.checkFields = false := by
  induction rows generalizing s with
  | nil =>
    refine ⟨by simp [processRecords], ?_⟩
    intro s1 h1
    simp only [processRecords, Except.ok.injEq] at h1
    subst h1
    exact ⟨rfl, hp, hc⟩
  | cons record rest ih =>
    obtain ⟨herr, hok⟩ := processRecord_later cfg s record hp hc
    simp only [processRecords]
    cases hrec : processRecord cfg s record with
    | error e =>
      refine ⟨?_, by simp⟩
      intro f hf
      simp only [Except.error.injEq] at hf
      rw [← hf]
      exact herr e hrec
    | ok sa =>
      obtain ⟨hf, hpa, hca⟩ := hok sa hrec
      obtain ⟨ih1, ih2⟩ := ih sa hpa hca
      refine ⟨ih1, ?_⟩
      intro s1 h1
      obtain ⟨g1, g2, g3⟩ := ih2 s1 h1
      exact ⟨by rw [g1, hf], g2, g3⟩

theorem beginChunk_result (cfg : FreqConfig) (s : FreqState) (chunk : CSVRecordsChunk) :
    (∀ e, beginChunk cfg s chunk = Except.error e → ∃ x, e = FreqError.chunkErr x)
    ∧ ∀ s1, beginChunk cfg s chunk = Except.ok s1 →
        s1.fields = s.fields ∧ s1.fieldsMap = s.fieldsMap
          ∧ s1.parseHeaderRow = s.parseHeaderRow ∧ s1.checkFields = s.checkFields := by
  unfold beginChunk
  cases hce : chunk.Err with
  | some x =>
    simp only [Option.map_some', checkError]
    exact ⟨fun e he => ⟨x, by simpa using he.symm⟩, by simp⟩
  | none =>
    simp only [Option.map_none', checkError]
    refine ⟨?_, ?_⟩
    · intro e he
      split at he <;> simp at he
    · intro s1 h1
      split at h1
      · simp only [Except.ok.injEq] at h1
        subst h1
        simp
      · simp only [Except.ok.injEq] at h1
        subst h1
        simp

/-- After the first record the run can only be aborted by a chunk error or at
cell access. -/
theorem processChunks_later (cfg : FreqConfig) (s : FreqState) (chunks : List CSVRecordsChunk)
    (hp : s.parseHeaderRow = false) (hc : s.checkFields = false) :
    ∀ f, processChunks cfg s chunks = Except.error f →
      f.err = FreqError.indexPanic ∨ ∃ x, f.err = FreqError.chunkErr x := by
  induction chunks generalizing s with
  | nil => simp [processChunks]
  | cons chunk rest ih =>
    obtain ⟨herr, hok⟩ := beginChunk_result cfg s chunk
    simp only [processChunks]
    cases hbc : beginChunk cfg s chunk with
    | error e =>
      intro f hf
      simp only [Except.error.injEq] at hf
      rw [← hf]
      exact Or.inr (herr e hbc)
    | ok sa =>
      obtain ⟨_, _, hpa, hca⟩ := hok sa hbc
      obtain ⟨h1, h2⟩ := processRecords_later cfg sa chunk.Data (by rw [hpa, hp])
        (by rw [hca, hc])
      dsimp only
      cases hrs : processRecords cfg sa chunk.Data with
      | error f0 =>
        intro f hf
        simp only [Except.error.injEq] at hf
        rw [← hf]
        exact Or.inl (h1 f0 hrs)
      | ok sb =>
        obtain ⟨_, hpb, hcb⟩ := h2 sb hrs
        exact ih sb hpb hcb

/-! ## Theorems: the `field out of range` error -/

theorem beginChunk_init (cfg : FreqConfig) (chunk : CSVRecordsChunk)
    (he : chunk.Err = none) :
    ∃ s0, beginChunk cfg (initState cfg) chunk = Except.ok s0
      ∧ s0.out = metaLineOutput cfg
      ∧ s0.fields = requestedIndices cfg
      ∧ s0.fieldsMap = fieldsToMap (requestedIndices cfg)
      ∧ s0.checkFields = true := by
  obtain ⟨hf, hm⟩ := initState_fields cfg
  unfold beginChunk metaLineOutput
  simp only [he, Option.map_none', checkError]
  by_cases hmeta : cfg.metaLine.length > 0
  · refine ⟨{ (initState cfg) with
        out := (initState cfg).out ++ [Output.text ("sep=" ++ cfg.comma ++ "\n")]
        printMetaLine := false }, ?_, ?_, hf, hm, rfl⟩
    · rw [if_pos (by simp [initState, hmeta])]
    · simp [initState, hmeta]
  · refine ⟨initState cfg, ?_, ?_, hf, hm, rfl⟩
    · rw [if_neg (by simp [initState, hmeta])]
    · simp [initState, hmeta]

/-- The first record of a run with a positional specification: either some
requested index exceeds the width of the record and the `checkFields` block
raises `field out of range` for such an index, or the record can only fail
with `no fields matched` or at cell access, and the header and field checks
are over afterwards. -/
theorem processRecord_first_positional (cfg : FreqConfig) (s0 : FreqState) (row : Row)
    (hcol : cfg.colnames = []) (hne : cfg.fields ≠ [])
    (hf : s0.fields = requestedIndices cfg)
    (hm : s0.fieldsMap = fieldsToMap (requestedIndices cfg))
    (hc : s0.checkFields = true) :
    ((∃ i ∈ requestedIndices cfg, i > (row.length : Int)) →
      ∃ field, processRecord cfg s0 row
          = Except.error (FreqError.fieldOutOfRange field row.length)
        ∧ field ∈ requestedIndices cfg ∧ field > (row.length : Int))
    ∧ ((¬ ∃ i ∈ requestedIndices cfg, i > (row.length : Int)) →
      (∀ e, processRecord cfg s0 row = Except.error e →
          e = FreqError.noFieldsMatched ∨ e = FreqError.indexPanic)
      ∧ ∀ s3, processRecord cfg s0 row = Except.ok s3 →
          s3.parseHeaderRow = false ∧ s3.checkFields = false) := by
  obtain ⟨s1, hs1, hm1, hc1, _, hp1⟩ := positional_before_check cfg s0 row hcol hne hf hm
  have hc1' : s1.checkFields = true := by rw [hc1, hc]
  have hrec : processRecord cfg s0 row =
      match checkFieldsStep cfg s1 row with
      | Except.error e => Except.error e
      | Except.ok s2 => countRecord s2 row := by
    unfold processRecord
    rw [hs1]
    simp only [hc1', if_true]
  rw [hrec]
  constructor
  · rintro ⟨i, hi, hgt⟩
    have hkey : (i, ()) ∈ s1.fieldsMap := by
      rw [hm1]
      have hhas := (mapHas_fieldsToMap (requestedIndices cfg) i).mpr hi
      unfold mapHas at hhas
      obtain ⟨v, hv⟩ := Option.isSome_iff_exists.mp hhas
      exact mem_of_mapGet _ i v hv
    obtain ⟨field, hstep, hmem, hbig⟩ :=
      checkFieldsStep_out_of_range cfg s1 row ⟨(i, ()), hkey, hgt⟩
    refine ⟨field, by rw [hstep], ?_, hbig⟩
    rw [hm1] at hmem
    exact mem_fieldsToMap _ _ hmem
  · intro hno
    have hle : ∀ fv ∈ s1.fieldsMap, fv.1 ≤ (row.length : Int) := by
      intro fv hfv
      rw [hm1] at hfv
      have hreq := mem_fieldsToMap _ fv hfv
      by_contra hcon
      exact hno ⟨fv.1, hreq, by omega⟩
    rw [checkFieldsStep_in_range cfg s1 row hle]
    by_cases hsel : (selectFields cfg.negativeFields s1.fieldsMap row.length).length = 0
    · rw [if_pos hsel]
      exact ⟨fun e he => Or.inl (by simpa using he.symm), by simp⟩
    · rw [if_neg hsel]
      dsimp only
      refine ⟨fun e he => Or.inr (countRecord_error _ row e he), ?_⟩
      intro s3 h3
      obtain ⟨_, g2, g3⟩ := countRecord_keeps _ s3 row h3
      exact ⟨by rw [g2]; exact hp1, by rw [g3]⟩

/-! ## Theorems: the field list of a run is the one resolved on its first row -/

theorem parseHeader_fieldsMap_congr (cfg : FreqConfig) (s t : FreqState) (record : Row)
    (hf : s.fields = t.fields) :
    (∀ e, parseHeader cfg s record = Except.error e → parseHeader cfg t record = Except.error e)
    ∧ ∀ s1, parseHeader cfg s record = Except.ok s1 →
        ∃ t1, parseHeader cfg t record = Except.ok t1 ∧ t1.fieldsMap = s1.fieldsMap
          ∧ s1.checkFields = s.checkFields ∧ t1.checkFields = t.checkFields
          ∧ s1.parseHeaderRow = false := by
  unfold parseHeader
  dsimp only
  cases hm : buildColnamesMap cfg (buildColnames2fileds record 0 []) cfg.colnames [] with
  | error e0 => exact ⟨fun e he => he, by simp⟩
  | ok m =>
    refine ⟨by simp, ?_⟩
    intro s1 h1
    simp only [Except.ok.injEq] at h1
    subst h1
    exact ⟨_, rfl, by simp [hf], rfl, rfl, rfl⟩

theorem checkFieldsStep_fields_congr (cfg : FreqConfig) (s t : FreqState) (record : Row)
    (hm : s.fieldsMap = t.fieldsMap) :
    (∀ e, checkFieldsStep cfg s record = Except.error e →
        checkFieldsStep cfg t record = Except.error e)
    ∧ ∀ s1, checkFieldsStep cfg s record = Except.ok s1 →
        ∃ t1, checkFieldsStep cfg t record = Except.ok t1 ∧ t1.fields = s1.fields := by
  unfold checkFieldsStep
  rw [hm]
  cases t.fieldsMap.find? (fun fv => decide (fv.1 > (record.length : Int))) with
  | some fv => exact ⟨fun e he => he, by simp⟩
  | none =>
    dsimp only
    by_cases hsel : (selectFields cfg.negativeFields t.fieldsMap record.length).length = 0
    · simp only [hsel, if_true]
      exact ⟨fun e he => he, by simp⟩
    · simp only [hsel, if_false]
      refine ⟨by simp, ?_⟩
      intro s1 h1
      simp only [Except.ok.injEq] at h1
      subst h1
      exact ⟨_, rfl, rfl⟩

/-- When the first record of a run is processed without error, the field list
it leaves in the state is the one given by `resolveFields`, and the header
and field checks are over. -/
theorem processRecord_first_resolves (cfg : FreqConfig) (s0 s3 : FreqState) (record : Row)
    (hf : s0.fields = (initState cfg).fields)
    (hm : s0.fieldsMap = (initState cfg).fieldsMap)
    (hp : s0.parseHeaderRow = (initState cfg).parseHeaderRow)
    (hc : s0.checkFields = true)
    (h : processRecord cfg s0 record = Except.ok s3) :
    resolveFields cfg record = Except.ok s3.fields
      ∧ s3.parseHeaderRow = false ∧ s3.checkFields = false := by
  unfold processRecord at h
  unfold resolveFields
  dsimp only
  rw [← hp]
  by_cases hph : s0.parseHeaderRow = true
  · rw [if_pos hph] at h ⊢
    obtain ⟨_, hok⟩ := parseHeader_fieldsMap_congr cfg s0 (initState cfg) record hf
    cases hs1 : parseHeader cfg s0 record with
    | error e => simp [hs1] at h
    | ok s1 =>
      rw [hs1] at h
      obtain ⟨t1, ht1, hmap, hc1, _, hp1⟩ := hok s1 hs1
      rw [ht1]
      dsimp only at h ⊢
      rw [if_pos (by rw [hc1, hc])] at h
      obtain ⟨_, hok2⟩ := checkFieldsStep_fields_congr cfg s1 t1 record hmap.symm
      cases hs2 : checkFieldsStep cfg s1 record with
      | error e => simp [hs2] at h
      | ok s2 =>
        rw [hs2] at h
        obtain ⟨t2, ht2, hfields⟩ := hok2 s2 hs2
        rw [ht2]
        dsimp only at h ⊢
        obtain ⟨g1, g2, g3⟩ := countRecord_keeps s2 s3 record h
        obtain ⟨_, _, _, k4, k5⟩ := checkFieldsStep_ok cfg s1 s2 record hs2
        exact ⟨by rw [hfields, g1], by rw [g2, k5, hp1], by rw [g3, k4]⟩
  · rw [if_neg hph] at h ⊢
    dsimp only at h ⊢
    rw [if_pos hc] at h
    obtain ⟨_, hok2⟩ := checkFieldsStep_fields_congr cfg s0 (initState cfg) record hm
    cases hs2 : checkFieldsStep cfg s0 record with
    | error e => simp [hs2] at h
    | ok s2 =>
      rw [hs2] at h
      obtain ⟨t2, ht2, hfields⟩ := hok2 s2 hs2
      rw [ht2]
      dsimp only at h ⊢
      obtain ⟨g1, g2, g3⟩ := countRecord_keeps s2 s3 record h
      obtain ⟨_, _, _, k4, k5⟩ := checkFieldsStep_ok cfg s0 s2 record hs2
      exact ⟨by rw [hfields, g1], by rw [g2, k5]; simpa using hph, by rw [g3, k4]⟩

theorem processChunks_later_fields (cfg : FreqConfig) (s s1 : FreqState)
    (chunks : List CSVRecordsChunk)
    (hp : s.parseHeaderRow = false) (hc : s.checkFields = false)
    (h : processChunks cfg s chunks = Except.ok s1) : s1.fields = s.fields := by
  induction chunks generalizing s with
  | nil =>
    simp only [processChunks, Except.ok.injEq] at h
    rw [h]
  | cons chunk rest ih =>
    simp only [processChunks] at h
    cases hbc : beginChunk cfg s chunk with
    | error e => simp [hbc] at h
    | ok sa =>
      rw [hbc] at h
      dsimp only at h
      obtain ⟨hfa, _, hpa, hca⟩ := (beginChunk_result cfg s chunk).2 sa hbc
      cases hrs : processRecords cfg sa chunk.Data with
      | error f => simp [hrs] at h
      | ok sb =>
        rw [hrs] at h
        obtain ⟨hfb, hpb, hcb⟩ :=
          (processRecords_later cfg sa chunk.Data (by rw [hpa, hp]) (by rw [hca, hc])).2 sb hrs
        rw [ih sb hpb hcb h, hfb, hfa]

/-- The field list at the end of a run over a non-empty input is the list
resolved on the first row: it is fixed there and never changed afterwards. -/
theorem freqIngest_fields_resolved (cfg : FreqConfig) (chunkSize : Nat) (row : Row)
    (rest : List Row) (s : FreqState) (hsize : 1 ≤ chunkSize)
    (h : freqIngest cfg chunkSize { rows := row :: rest, err := none } = Except.ok s) :
    resolveFields cfg row = Except.ok s.fields := by
  obtain ⟨c, cs, d, hrun, he, hd⟩ := Run_first_chunk chunkSize row rest hsize
  unfold freqIngest at h
  rw [hrun] at h
  simp only [processChunks] at h
  cases hbc : beginChunk cfg (initState cfg) c with
  | error e => simp [hbc] at h
  | ok s0 =>
    rw [hbc] at h
    dsimp only at h
    obtain ⟨hf0, hm0, hp0, hc0⟩ := (beginChunk_result cfg (initState cfg) c).2 s0 hbc
    rw [hd] at h
    simp only [processRecords] at h
    cases hrec : processRecord cfg s0 row with
    | error e => simp [hrec] at h
    | ok s1 =>
      rw [hrec] at h
      dsimp only at h
      obtain ⟨hres, hp1, hc1⟩ :=
        processRecord_first_resolves cfg s0 s1 row hf0 hm0 hp0 (by rw [hc0]; rfl) hrec
      cases hrs : processRecords cfg s1 d with
      | error f => simp [hrs] at h
      | ok s2 =>
        rw [hrs] at h
        dsimp only at h
        obtain ⟨hf2, hp2, hc2⟩ := (processRecords_later cfg s1 d hp1 hc1).2 s2 hrs
        rw [processChunks_later_fields cfg s2 s cs hp2 hc2 h, hf2]
        exact hres

/-! ## Theorems: the last chunk and the sequence numbers -/

/-- The chunks sent by the loop are a run of full chunks without error followed
by one last chunk, which carries the way the stream ended and the records
buffered since the last full chunk. -/
theorem runLoop_shape (chunkSize : Nat) (err : Option String) (rows chunkData : List Row)
    (id i : Nat) (hlen : chunkData.length = chunkSize) (hi : i < chunkSize) :
    ∃ init last, runLoop chunkSize err rows chunkData id i = init ++ [last]
      ∧ last.Err = err
      ∧ last.Data.length = (i + rows.length) % chunkSize
      ∧ ∀ c ∈ init, c.Err = none ∧ c.Data.length = chunkSize := by
  induction rows generalizing chunkData id i with
  | nil =>
    have hmod : (i + ([] : List Row).length) % chunkSize = i := by
      simp [Nat.mod_eq_of_lt hi]
    have htake : (chunkData.take i).length = i := by
      rw [List.length_take]
      omega
    cases err with
    | none => exact ⟨[], _, rfl, rfl, by rw [hmod]; exact htake, by simp⟩
    | some e => exact ⟨[], _, rfl, rfl, by rw [hmod]; exact htake, by simp⟩
  | cons record rest ih =>
    simp only [runLoop]
    split
    · next hfull =>
      obtain ⟨init, last, hrun, herr, hl, hinit⟩ :=
        ih (List.replicate chunkSize []) (id + 1) 0 (by simp) (by omega)
      refine ⟨_ :: init, last, by rw [hrun]; rfl, herr, ?_, ?_⟩
      · rw [hl, List.length_cons]
        have : i + (rest.length + 1) = chunkSize + rest.length := by omega
        rw [this, Nat.add_mod_left, Nat.zero_add]
      · intro c hc
        rcases List.mem_cons.mp hc with hc | hc
        · subst hc
          exact ⟨rfl, by simp [hlen]⟩
        · exact hinit c hc
    · next hnot =>
      obtain ⟨init, last, hrun, herr, hl, hinit⟩ :=
        ih (chunkData.set i record) id (i + 1) (by simp [hlen]) (by omega)
      refine ⟨init, last, hrun, herr, ?_, hinit⟩
      rw [hl, List.length_cons]
      congr 1
      omega

/-- C14 (amended): for every row sequence read to end-of-stream without error
and every chunk size of at least 1, the final chunk delivered by
`CSVReader.Run` carries no error and holds the rows left over after the full
chunks, so it has zero rows exactly when the number of rows is a multiple of
the chunk size (the empty stream included); every chunk before the final one
holds `chunkSize` rows, hence at least one. -/
theorem Run_final_chunk (chunkSize : Nat) (rows : List Row) (h : 1 ≤ chunkSize) :
    ∃ init last, Run chunkSize { rows := rows, err := none } = init ++ [last]
      ∧ last.Err = none
      ∧ last.Data.length = rows.length % chunkSize
      ∧ (last.Data = [] ↔ chunkSize ∣ rows.length)
      ∧ ∀ c ∈ init, c.Err = none ∧ c.Data.length = chunkSize ∧ c.Data ≠ [] := by
  obtain ⟨init, last, hrun, herr, hl, hinit⟩ :=
    runLoop_shape chunkSize none rows (List.replicate chunkSize []) 0 0 (by simp) (by omega)
  rw [Nat.zero_add] at hl
  refine ⟨init, last, hrun, herr, hl, ?_, ?_⟩
  · rw [← List.length_eq_zero, hl, Nat.dvd_iff_mod_eq_zero]
  · intro c hc
    obtain ⟨h1, h2⟩ := hinit c hc
    refine ⟨h1, h2, ?_⟩
    intro hnil
    rw [hnil] at h2
    simp only [List.length_nil] at h2
    omega

theorem Run_final_chunk_witness :
    1 ≤ 2
    ∧ Run 2 { rows := [["1"], ["2"], ["3"], ["4"], ["5"]], err := none }
        = [{ ID := 1, Data := [["1"], ["2"]], Err := none },
           { ID := 2, Data := [["3"], ["4"]], Err := none },
           { ID := 3, Data := [["5"]], Err := none }]
    ∧ ∃ init last, Run 2 { rows := [["1"], ["2"], ["3"], ["4"], ["5"]], err := none }
          = init ++ [last]
        ∧ last.Err = none
        ∧ last.Data.length = ([["1"], ["2"], ["3"], ["4"], ["5"]] : List Row).length % 2
        ∧ (last.Data = [] ↔ 2 ∣ ([["1"], ["2"], ["3"], ["4"], ["5"]] : List Row).length)
        ∧ ∀ c ∈ init, c.Err = none ∧ c.Data.length = 2 ∧ c.Data ≠ [] :=
  ⟨by decide, by decide,
    Run_final_chunk 2 [["1"], ["2"], ["3"], ["4"], ["5"]] (by decide)⟩

/-- C14 as stated fails: four rows read with chunk size 2 give two full chunks
and then, on end-of-stream, a final chunk with zero rows, although the stream
was not empty. -/
theorem Run_empty_final_chunk :
    Run 2 { rows := [["1"], ["2"], ["3"], ["4"]], err := none }
      = [{ ID := 1, Data := [["1"], ["2"]], Err := none },
         { ID := 2, Data := [["3"], ["4"]], Err := none },
         { ID := 3, Data := [], Err := none }] := by
  decide

/-- C15: the chunk sent on a read error keeps the number of the chunk before
it (`id` is not incremented on that path). Chunk size 2 and a read error after
three rows: the two chunks both have ID 1. A read error on the first read: the
only chunk has ID 0. -/
theorem Run_error_chunk_id :
    (Run 2 { rows := [["1"], ["2"], ["3"]], err := some "bad" }).map CSVRecordsChunk.ID
      = [1, 1]
    ∧ (Run 2 { rows := [], err := some "bad" }).map CSVRecordsChunk.ID = [0]
    ∧ (Run 2 { rows := [["1"], ["2"], ["3"], ["4"], ["5"]], err := none }).map
        CSVRecordsChunk.ID = [1, 2, 3] :=
  ⟨by decide, by decide, by decide⟩

/-- C16: when the reader returns a non-EOF error after `rows` were read, the
last chunk delivered carries that error together with exactly the rows
buffered since the last full chunk (`rows.length % chunkSize` of them, the
tail of `rows`); every earlier chunk is full and carries no error; the rows of
all chunks, in order, are the rows read before the error; nothing follows the
error chunk. -/
theorem Run_read_error (chunkSize : Nat) (rows : List Row) (e : String)
    (h : 1 ≤ chunkSize) :
    ∃ init last, Run chunkSize { rows := rows, err := some e } = init ++ [last]
      ∧ last.Err = some e
      ∧ last.Data.length = rows.length % chunkSize
      ∧ last.Data = rows.drop (rows.length - rows.length % chunkSize)
      ∧ (∀ c ∈ init, c.Err = none ∧ c.Data.length = chunkSize)
      ∧ (init.map CSVRecordsChunk.Data).flatten ++ last.Data = rows := by
  obtain ⟨init, last, hrun, herr, hl, hinit⟩ :=
    runLoop_shape chunkSize (some e) rows (List.replicate chunkSize []) 0 0 (by simp)
      (by omega)
  rw [Nat.zero_add] at hl
  have hdata := Run_data chunkSize { rows := rows, err := some e } h
  have hrun' : Run chunkSize { rows := rows, err := some e } = init ++ [last] := hrun
  rw [hrun'] at hdata
  simp only [List.map_append, List.map_cons, List.map_nil, List.flatten_append,
    List.flatten_cons, List.flatten_nil, List.append_nil] at hdata
  refine ⟨init, last, hrun, herr, hl, ?_, hinit, hdata⟩
  have hlen : ((init.map CSVRecordsChunk.Data).flatten).length
      = rows.length - rows.length % chunkSize := by
    have := congrArg List.length hdata
    rw [List.length_append, hl] at this
    omega
  rw [← hlen]
  conv_rhs => rw [← hdata]
  rw [List.drop_left]

theorem Run_read_error_witness :
    1 ≤ 2
    ∧ Run 2 { rows := [["1"], ["2"], ["3"]], err := some "bad" }
        = [{ ID := 1, Data := [["1"], ["2"]], Err := none },
           { ID := 1, Data := [["3"]], Err := some "bad" }]
    ∧ ∃ init last, Run 2 { rows := [["1"], ["2"], ["3"]], err := some "bad" } = init ++ [last]
        ∧ last.Err = some "bad"
        ∧ last.Data.length = ([["1"], ["2"], ["3"]] : List Row).length % 2
        ∧ last.Data = ([["1"], ["2"], ["3"]] : List Row).drop
            (([["1"], ["2"], ["3"]] : List Row).length
              - ([["1"], ["2"], ["3"]] : List Row).length % 2)
        ∧ (∀ c ∈ init, c.Err = none ∧ c.Data.length = 2)
        ∧ (init.map CSVRecordsChunk.Data).flatten ++ last.Data = [["1"], ["2"], ["3"]] :=
  ⟨by decide, by decide, Run_read_error 2 [["1"], ["2"], ["3"]] "bad" (by decide)⟩

/-! ## Theorems: cell access on the later records -/

theorem fillItems_ok (record : Row) (fields : List Int) (i : Nat) (items : List String)
    (hrange : ∀ f ∈ fields, 1 ≤ f ∧ f ≤ (record.length : Int))
    (hroom : i + fields.length ≤ items.length) :
    fillItems record fields i items
      = Except.ok (items.take i ++ selectedCells fields record
          ++ items.drop (i + fields.length)) := by
  induction fields generalizing i items with
  | nil => simp [fillItems, selectedCells]
  | cons f fs ih =>
    obtain ⟨h1, h2⟩ := hrange f (List.mem_cons_self _ _)
    have hlt : (f - 1).toNat < record.length := by omega
    have hget : record.get? (f - 1).toNat = some (record.getD (f - 1).toNat "") := by
      rw [List.get?_eq_getElem?, List.getD_eq_getElem?_getD, List.getElem?_eq_getElem hlt]
      rfl
    simp only [List.length_cons] at hroom
    simp only [fillItems]
    rw [if_neg (by omega), hget]
    dsimp only
    rw [if_neg (by omega)]
    rw [ih (i + 1) _ (fun g hg => hrange g (List.mem_cons_of_mem _ hg))
      (by rw [List.length_set]; omega)]
    rw [take_set_succ items i _ (by omega), List.drop_set_of_lt _ _ (by omega)]
    simp only [selectedCells, List.map_cons, List.length_cons, List.append_assoc,
      List.singleton_append]
    congr 4
    omega

theorem fillItems_ok_range (record : Row) (fields : List Int) (i : Nat)
    (items result : List String)
    (h : fillItems record fields i items = Except.ok result) :
    ∀ f ∈ fields, f ≤ (record.length : Int) := by
  induction fields generalizing i items with
  | nil => simp
  | cons f fs ih =>
    simp only [fillItems] at h
    split at h
    · simp at h
    · next hneg =>
      split at h
      · simp at h
      · next cell hcell =>
        split at h
        · simp at h
        · intro g hg
          rcases List.mem_cons.mp hg with hg | hg
          · subst hg
            rw [List.get?_eq_getElem?] at hcell
            obtain ⟨hlt, _⟩ := List.getElem?_eq_some.mp hcell
            omega
          · exact ih _ _ h g hg

/-- In a resolved state a record is processed by the counting part alone. -/
theorem processRecord_resolved (cfg : FreqConfig) (s : FreqState) (record : Row)
    (hs : Resolved s) : processRecord cfg s record = countRecord s record := by
  unfold processRecord
  simp [hs.1, hs.2.1]

/-- C18: once the field list is fixed, a record narrower than some resolved
index aborts the run at cell access (a run-time panic): no key is formed and no
count is changed for it. A record at least as wide as every resolved index
never fails: its selected cells are read as they are, and, the header row
being already written, it is counted under their joined key. -/
theorem processRecord_cell_access (cfg : FreqConfig) (s : FreqState) (record : Row)
    (hs : Resolved s) :
    ((∃ f ∈ s.fields, (record.length : Int) < f) →
      processRecord cfg s record = Except.error FreqError.indexPanic)
    ∧ ((∀ f ∈ s.fields, f ≤ (record.length : Int)) →
      ∃ s1, processRecord cfg s record = Except.ok s1
        ∧ s1.fields = s.fields
        ∧ s1.items = selectedCells s.fields record
        ∧ (s.printHeaderRow = false →
            s1.counter = counterIncr s.counter
              (String.intercalate keySep (selectedCells s.fields record)))) := by
  obtain ⟨hp, hc, hpos, hitems⟩ := hs
  rw [processRecord_resolved cfg s record ⟨hp, hc, hpos, hitems⟩]
  constructor
  · rintro ⟨f, hf, hnarrow⟩
    cases hrec : countRecord s record with
    | error e => rw [countRecord_error s record e hrec]
    | ok s1 =>
      exfalso
      unfold countRecord at hrec
      cases hfill : fillItems record s.fields 0 s.items with
      | error e => simp [hfill] at hrec
      | ok items =>
        have := fillItems_ok_range record s.fields 0 s.items items hfill f hf
        omega
  · intro hwide
    have hfill := fillItems_ok record s.fields 0 s.items
      (fun f hf => ⟨hpos f hf, hwide f hf⟩) (by omega)
    have hfill' : fillItems record s.fields 0 s.items
        = Except.ok (selectedCells s.fields record) := by
      rw [hfill, Nat.zero_add, ← hitems, List.drop_length]
      simp
    unfold countRecord
    rw [hfill']
    dsimp only
    by_cases hph : s.printHeaderRow = true
    · rw [if_pos hph]
      exact ⟨_, rfl, rfl, rfl, fun h => absurd hph (by simp [h])⟩
    · rw [if_neg hph]
      exact ⟨_, rfl, rfl, rfl, fun _ => rfl⟩

theorem processRecord_cell_access_witness :
    Resolved
      { fields := [1, 3], fieldsMap := [(1, ()), (3, ())], colnames2fileds := [],
        colnamesMap := [], parseHeaderRow := false, printHeaderRow := false,
        checkFields := false, printMetaLine := true, items := ["a", "c"],
        counter := [("a_shenwei356_c", 1)], out := [] }
    ∧ ((∃ f ∈ ([1, 3] : List Int), ((["a", "b"] : Row).length : Int) < f) →
        processRecord (exampleConfig [1, 3] [] false false false)
          { fields := [1, 3], fieldsMap := [(1, ()), (3, ())], colnames2fileds := [],
            colnamesMap := [], parseHeaderRow := false, printHeaderRow := false,
            checkFields := false, printMetaLine := true, items := ["a", "c"],
            counter := [("a_shenwei356_c", 1)], out := [] }
          ["a", "b"] = Except.error FreqError.indexPanic)
    ∧ (∃ f ∈ ([1, 3] : List Int), ((["a", "b"] : Row).length : Int) < f) :=
  ⟨⟨rfl, rfl, by decide, rfl⟩,
    (processRecord_cell_access (exampleConfig [1, 3] [] false false false)
      { fields := [1, 3], fieldsMap := [(1, ()), (3, ())], colnames2fileds := [],
        colnamesMap := [], parseHeaderRow := false, printHeaderRow := false,
        checkFields := false, printMetaLine := true, items := ["a", "c"],
        counter := [("a_shenwei356_c", 1)], out := [] }
      ["a", "b"] ⟨rfl, rfl, by decide, rfl⟩).1,
    ⟨3, by decide, by decide⟩⟩

/-! ## Theorems: the counter table as a function of the rows -/

theorem mapGet_counterIncr (counter : List (String × Nat)) (key k : String) :
    mapGet (counterIncr counter key) k
      = if key = k then some ((mapGet counter key).getD 0 + 1) else mapGet counter k := by
  unfold counterIncr
  rw [mapGet_mapSet]

/-- One record that is wide enough, processed in a resolved state after the
header row: the state stays resolved, the field list is kept, and the count of
the record's key goes up by one. -/
theorem countRecord_resolved (cfg : FreqConfig) (s : FreqState) (record : Row)
    (hs : Resolved s) (hh : s.printHeaderRow = false)
    (hwide : ∀ f ∈ s.fields, f ≤ (record.length : Int)) :
    ∃ s1, processRecord cfg s record = Except.ok s1
      ∧ Resolved s1 ∧ s1.printHeaderRow = false ∧ s1.fields = s.fields
      ∧ s1.counter = counterIncr s.counter
          (String.intercalate keySep (selectedCells s.fields record)) := by
  obtain ⟨hp, hc, hpos, hitems⟩ := hs
  have hfill := fillItems_ok record s.fields 0 s.items
    (fun f hf => ⟨hpos f hf, hwide f hf⟩) (by omega)
  have hfill' : fillItems record s.fields 0 s.items
      = Except.ok (selectedCells s.fields record) := by
    rw [hfill, Nat.zero_add, ← hitems, List.drop_length]
    simp
  rw [processRecord_resolved cfg s record ⟨hp, hc, hpos, hitems⟩]
  unfold countRecord
  rw [hfill']
  dsimp only
  rw [if_neg (by simp [hh])]
  exact ⟨_, rfl, ⟨hp, hc, hpos, by simp [selectedCells]⟩, hh, rfl, rfl⟩

/-- The counter table after the aggregation loop: each key has its former
count plus the number of rows with that key, and a key is in the table exactly
when it was there before or some row has it. -/
theorem processRecords_counter (cfg : FreqConfig) (s : FreqState) (rows : List Row)
    (hs : Resolved s) (hh : s.printHeaderRow = false)
    (hwide : ∀ r ∈ rows, ∀ f ∈ s.fields, f ≤ (r.length : Int)) :
    ∃ s1, processRecords cfg s rows = Except.ok s1
      ∧ Resolved s1 ∧ s1.printHeaderRow = false ∧ s1.fields = s.fields
      ∧ ∀ k, mapGet s1.counter k =
          if rows.countP
              (fun r => decide (String.intercalate keySep (selectedCells s.fields r) = k)) = 0
          then mapGet s.counter k
          else some ((mapGet s.counter k).getD 0
            + rows.countP
                (fun r => decide (String.intercalate keySep (selectedCells s.fields r) = k))) := by
  induction rows generalizing s with
  | nil => exact ⟨s, rfl, hs, hh, rfl, by simp⟩
  | cons record rest ih =>
    obtain ⟨sa, hrec, hsa, hha, hfa, hca⟩ :=
      countRecord_resolved cfg s record hs hh (hwide record (List.mem_cons_self _ _))
    obtain ⟨s1, hrun, hs1, hh1, hf1, hc1⟩ := ih sa hsa hha
      (fun r hr f hf => hwide r (List.mem_cons_of_mem _ hr) f (by rw [← hfa]; exact hf))
    refine ⟨s1, ?_, hs1, hh1, by rw [hf1, hfa], ?_⟩
    · simp only [processRecords, hrec]
      exact hrun
    · intro k
      rw [hc1 k, hca, mapGet_counterIncr, hfa, List.countP_cons]
      by_cases hk : String.intercalate keySep (selectedCells s.fields record) = k
      · subst hk
        simp only [decide_True, if_true]
        generalize List.countP _ rest = n
        by_cases hn : n = 0
        · simp [hn]
        · simp only [hn, if_false, Option.getD_some, Nat.add_eq_zero, and_false,
            false_and, Option.some.injEq]
          omega
      · simp only [hk, decide_False, if_false, Bool.false_eq_true, Nat.add_zero]

/-- C17: for a fixed field list, two row sequences that are permutations of
each other (every row at least as wide as the largest resolved index) are both
aggregated without error, and the two counter tables have the same keys with
the same count for each key. -/
theorem processRecords_perm (cfg : FreqConfig) (s : FreqState) (rows1 rows2 : List Row)
    (hs : Resolved s) (hh : s.printHeaderRow = false)
    (hperm : rows1.Perm rows2)
    (hwide : ∀ r ∈ rows1, ∀ f ∈ s.fields, f ≤ (r.length : Int)) :
    ∃ s1 s2, processRecords cfg s rows1 = Except.ok s1
      ∧ processRecords cfg s rows2 = Except.ok s2
      ∧ ∀ k, mapGet s1.counter k = mapGet s2.counter k := by
  obtain ⟨s1, h1, _, _, _, hc1⟩ := processRecords_counter cfg s rows1 hs hh hwide
  obtain ⟨s2, h2, _, _, _, hc2⟩ := processRecords_counter cfg s rows2 hs hh
    (fun r hr => hwide r (hperm.symm.subset hr))
  refine ⟨s1, s2, h1, h2, ?_⟩
  intro k
  rw [hc1 k, hc2 k, hperm.countP_eq]

theorem processRecords_perm_witness :
    Resolved
      { fields := [1, 2], fieldsMap := [(1, ()), (2, ())], colnames2fileds := [],
        colnamesMap := [], parseHeaderRow := false, printHeaderRow := false,
        checkFields := false, printMetaLine := true, items := ["", ""],
        counter := [], out := [] }
    ∧ ([["a", "x"], ["b", "y"], ["a", "x"]] : List Row).Perm
        [["b", "y"], ["a", "x"], ["a", "x"]]
    ∧ (∀ r ∈ ([["a", "x"], ["b", "y"], ["a", "x"]] : List Row),
        ∀ f ∈ ([1, 2] : List Int), f ≤ (r.length : Int))
    ∧ ∃ s1 s2,
        processRecords (exampleConfig [1, 2] [] false false false)
          { fields := [1, 2], fieldsMap := [(1, ()), (2, ())], colnames2fileds := [],
            colnamesMap := [], parseHeaderRow := false, printHeaderRow := false,
            checkFields := false, printMetaLine := true, items := ["", ""],
            counter := [], out := [] }
          [["a", "x"], ["b", "y"], ["a", "x"]] = Except.ok s1
        ∧ processRecords (exampleConfig [1, 2] [] false false false)
          { fields := [1, 2], fieldsMap := [(1, ()), (2, ())], colnames2fileds := [],
            colnamesMap := [], parseHeaderRow := false, printHeaderRow := false,
            checkFields := false, printMetaLine := true, items := ["", ""],
            counter := [], out := [] }
          [["b", "y"], ["a", "x"], ["a", "x"]] = Except.ok s2
        ∧ ∀ k, mapGet s1.counter k = mapGet s2.counter k :=
  ⟨⟨rfl, rfl, by decide, rfl⟩, by decide, by decide,
    processRecords_perm (exampleConfig [1, 2] [] false false false)
      { fields := [1, 2], fieldsMap := [(1, ()), (2, ())], colnames2fileds := [],
        colnamesMap := [], parseHeaderRow := false, printHeaderRow := false,
        checkFields := false, printMetaLine := true, items := ["", ""],
        counter := [], out := [] }
      [["a", "x"], ["b", "y"], ["a", "x"]] [["b", "y"], ["a", "x"], ["a", "x"]]
      ⟨rfl, rfl, by decide, rfl⟩ rfl (by decide) (by decide)⟩

theorem fillItems_length (record : Row) (fields : List Int) (i : Nat)
    (items result : List String)
    (h : fillItems record fields i items = Except.ok result) :
    result.length = items.length := by
  induction fields generalizing i items with
  | nil =>
    simp only [fillItems, Except.ok.injEq] at h
    rw [h]
  | cons f fs ih =>
    simp only [fillItems] at h
    split at h
    · simp at h
    · split at h
      · simp at h
      · split at h
        · simp at h
        · rw [ih _ _ h, List.length_set]

/-- The state left by the first record of a run is resolved. -/
theorem processRecord_first_resolved (cfg : FreqConfig) (s0 s3 : FreqState) (record : Row)
    (hc : s0.checkFields = true)
    (h : processRecord cfg s0 record = Except.ok s3) : Resolved s3 := by
  unfold processRecord at h
  cases hs1 : (if s0.parseHeaderRow = true then parseHeader cfg s0 record
      else Except.ok s0) with
  | error e => simp [hs1] at h
  | ok s1 =>
    rw [hs1] at h
    dsimp only at h
    have h1 : s1.checkFields = true ∧ s1.parseHeaderRow = false := by
      by_cases hp : s0.parseHeaderRow = true
      · rw [if_pos hp] at hs1
        obtain ⟨_, _, _, hck, _, hpr⟩ :=
          (parseHeader_fieldsMap_congr cfg s0 s0 record rfl).2 s1 hs1
        exact ⟨by rw [hck, hc], hpr⟩
      · rw [if_neg hp] at hs1
        simp only [Except.ok.injEq] at hs1
        subst hs1
        exact ⟨hc, by simpa using hp⟩
    rw [if_pos h1.1] at h
    cases hs2 : checkFieldsStep cfg s1 record with
    | error e => simp [hs2] at h
    | ok s2 =>
      rw [hs2] at h
      dsimp only at h
      obtain ⟨k1, _, k3, k4, k5⟩ := checkFieldsStep_ok cfg s1 s2 record hs2
      obtain ⟨g1, g2, g3⟩ := countRecord_keeps s2 s3 record h
      refine ⟨by rw [g2, k5, h1.2], by rw [g3, k4], ?_, ?_⟩
      · intro f hf
        rw [g1, k1] at hf
        exact ((mem_selectFields _ _ _ f).mp hf).1
      · unfold countRecord at h
        cases hfill : fillItems record s2.fields 0 s2.items with
        | error e => simp [hfill] at h
        | ok items =>
          rw [hfill] at h
          dsimp only at h
          have hlen := fillItems_length record s2.fields 0 s2.items items hfill
          split at h
          · simp only [Except.ok.injEq] at h
            subst h
            simp only
            rw [hlen, k3]
          · simp only [Except.ok.injEq] at h
            subst h
            simp only
            rw [hlen, k3]

/-! ## Theorems: emission order -/

theorem charsLe_total (a b : List Char) : charsLe a b = true ∨ charsLe b a = true := by
  induction a generalizing b with
  | nil => exact Or.inl (by simp [charsLe])
  | cons x xs ih =>
    cases b with
    | nil => exact Or.inr (by simp [charsLe])
    | cons y ys =>
      simp only [charsLe]
      rcases lt_trichotomy x y with h | h | h
      · exact Or.inl (by simp [h])
      · subst h
        simpa using ih ys
      · exact Or.inr (by simp [h])

theorem charsLe_trans (a b c : List Char) (hab : charsLe a b = true)
    (hbc : charsLe b c = true) : charsLe a c = true := by
  induction a generalizing b c with
  | nil => simp [charsLe]
  | cons x xs ih =>
    cases b with
    | nil => simp [charsLe] at hab
    | cons y ys =>
      cases c with
      | nil => simp [charsLe] at hbc
      | cons z zs =>
        simp only [charsLe] at hab hbc ⊢
        rcases lt_trichotomy x y with hxy | hxy | hxy
        · rcases lt_trichotomy y z with hyz | hyz | hyz
          · simp [lt_trans hxy hyz]
          · subst hyz
            simp [hxy]
          · simp [hyz, not_lt_of_gt hyz, ne_of_gt hyz] at hbc
        · subst hxy
          rcases lt_trichotomy x z with hyz | hyz | hyz
          · simp [hyz]
          · subst hyz
            simp only [lt_self_iff_false, if_false, if_true] at hab hbc ⊢
            exact ih ys zs hab hbc
          · simp [not_lt_of_gt hyz, ne_of_gt hyz] at hbc
        · simp [not_lt_of_gt hxy, ne_of_gt hxy] at hab

/-- The slice `keys` after `sort.Strings` is in non-decreasing ordinal order. -/
theorem sortStrings_sorted (keys : List String) :
    (sortStrings keys).Sorted (fun a b => ordinalLe a b = true) :=
  @List.sorted_insertionSort String (fun a b => ordinalLe a b = true) _
    ⟨fun a b => charsLe_total a.data b.data⟩
    ⟨fun a b c hab hbc => charsLe_trans a.data b.data c.data hab hbc⟩ keys

/-- C12: with sort-by-key set and sort-by-frequency not set, the rows are
written key by key along the slice `keys`, and for every counter table that
sequence of keys is non-decreasing under ordinal string comparison when
reverse is not set and non-increasing when reverse is set. -/
theorem sortedKeys_ordered (counter : List (String × Nat)) :
    (∀ reverse, emit false true reverse counter
        = (sortedKeys reverse counter).map
            (fun key => emitRow key ((mapGet counter key).getD 0)))
    ∧ (sortedKeys false counter).Sorted (fun a b => ordinalLe a b = true)
    ∧ (sortedKeys true counter).Sorted (fun a b => ordinalLe b a = true) := by
  refine ⟨fun reverse => rfl, ?_, ?_⟩
  · exact sortStrings_sorted _
  · have h := sortStrings_sorted (counter.map Prod.fst)
    unfold sortedKeys ReverseStringSliceInplace
    simp only [if_true]
    unfold List.Sorted at h ⊢
    rw [List.pairwise_reverse]
    exact h

/-- C11: one row with the single selected cell `a_shenwei356_b` is counted
under the key `a_shenwei356_b`; on emission the key is split on the separator,
and the row written is `a, b, 1`: three cells instead of the two of the tuple
followed by its count. -/
theorem emitted_row_splits_cell :
    freqRun (exampleConfig [1] [] false false false) false false false 2
        { rows := [["a_shenwei356_b"]], err := none }
      = Except.ok [Output.record ["a", "b", "1"]]
    ∧ selectedCells [1] ["a_shenwei356_b"] = ["a_shenwei356_b"] :=
  ⟨by decide, by decide⟩

/-- C20 as stated fails: for the tuples `("a", "z")` and `("a!", "b")` the
joined keys are in the order `a!_shenwei356_b`, `a_shenwei356_z` (`!` is below
`_`), so the rows are written in that order, while as tuples `("a!", "b")` is
above `("a", "z")`. -/
theorem by_key_order_is_not_tuple_order :
    freqRun (exampleConfig [1, 2] [] false false false) false true false 2
        { rows := [["a", "z"], ["a!", "b"]], err := none }
      = Except.ok [Output.record ["a!", "b", "1"], Output.record ["a", "z", "1"]]
    ∧ tupleLe ["a!", "b"] ["a", "z"] = false
    ∧ tupleLe ["a", "z"] ["a!", "b"] = true :=
  ⟨by decide, by decide, by decide⟩

/-! ## Theorems: the counter table has each key once -/

theorem mapSet_keys {κ ν : Type} [DecidableEq κ] (m : List (κ × ν)) (k : κ) (v : ν) :
    (mapSet m k v).map Prod.fst
      = if k ∈ m.map Prod.fst then m.map Prod.fst else m.map Prod.fst ++ [k] := by
  induction m with
  | nil => simp [mapSet]
  | cons ab m ih =>
    obtain ⟨a, b⟩ := ab
    by_cases hak : a = k
    · subst hak
      simp [mapSet]
    · have hka : ¬ k = a := fun h => hak h.symm
      simp only [mapSet, hak, if_false, List.map_cons, ih, List.mem_cons, hka, false_or]
      split <;> simp

theorem mapSet_keys_nodup {κ ν : Type} [DecidableEq κ] (m : List (κ × ν)) (k : κ) (v : ν)
    (h : (m.map Prod.fst).Nodup) : ((mapSet m k v).map Prod.fst).Nodup := by
  rw [mapSet_keys]
  split
  · exact h
  · next hk =>
    rw [List.nodup_append]
    refine ⟨h, by simp, ?_⟩
    intro x hx hx2
    simp only [List.mem_singleton] at hx2
    subst hx2
    exact hk hx

theorem mapGet_of_mem_nodup {κ ν : Type} [DecidableEq κ] (m : List (κ × ν)) (k : κ) (v : ν)
    (hnd : (m.map Prod.fst).Nodup) (h : (k, v) ∈ m) : mapGet m k = some v := by
  induction m with
  | nil => simp at h
  | cons ab m ih =>
    obtain ⟨a, b⟩ := ab
    simp only [List.map_cons, List.nodup_cons] at hnd
    rcases List.mem_cons.mp h with h | h
    · simp only [Prod.mk.injEq] at h
      simp [mapGet, h.1, h.2]
    · have hne : ¬ a = k := by
        intro hak
        subst hak
        exact hnd.1 (List.mem_map.mpr ⟨(a, v), h, rfl⟩)
      simp only [mapGet, hne, if_false]
      exact ih hnd.2 h

theorem countRecord_counter (s s1 : FreqState) (record : Row)
    (h : countRecord s record = Except.ok s1) :
    s1.counter = s.counter ∨ ∃ key, s1.counter = counterIncr s.counter key := by
  unfold countRecord at h
  split at h
  · simp at h
  · split at h
    · simp only [Except.ok.injEq] at h
      subst h
      exact Or.inl rfl
    · simp only [Except.ok.injEq] at h
      subst h
      exact Or.inr ⟨_, rfl⟩

theorem processRecord_counter_nodup (cfg : FreqConfig) (s s1 : FreqState) (record : Row)
    (hnd : (s.counter.map Prod.fst).Nodup)
    (h : processRecord cfg s record = Except.ok s1) :
    (s1.counter.map Prod.fst).Nodup := by
  unfold processRecord at h
  split at h
  · simp at h
  · next sa ha =>
    split at h
    · simp at h
    · next sb hb =>
      have h1 : sa.counter = s.counter := by
        split at ha
        · exact (parseHeader_keeps cfg s sa record ha).1
        · simp only [Except.ok.injEq] at ha
          rw [ha]
      have h2 : sb.counter = sa.counter := by
        split at hb
        · exact (checkFieldsStep_keeps cfg sa sb record hb).1
        · simp only [Except.ok.injEq] at hb
          rw [hb]
      rcases countRecord_counter sb s1 record h with h3 | ⟨key, h3⟩
      · rw [h3, h2, h1]
        exact hnd
      · rw [h3, h2, h1]
        exact mapSet_keys_nodup _ _ _ hnd

theorem processRecords_counter_nodup (cfg : FreqConfig) (s s1 : FreqState) (rows : List Row)
    (hnd : (s.counter.map Prod.fst).Nodup)
    (h : processRecords cfg s rows = Except.ok s1) :
    (s1.counter.map Prod.fst).Nodup := by
  induction rows generalizing s with
  | nil =>
    simp only [processRecords, Except.ok.injEq] at h
    rw [← h]
    exact hnd
  | cons record rest ih =>
    simp only [processRecords] at h
    cases hrec : processRecord cfg s record with
    | error e => simp [hrec] at h
    | ok sa =>
      rw [hrec] at h
      exact ih sa (processRecord_counter_nodup cfg s sa record hnd hrec) h

theorem processChunks_counter_nodup (cfg : FreqConfig) (s s1 : FreqState)
    (chunks : List CSVRecordsChunk)
    (hnd : (s.counter.map Prod.fst).Nodup)
    (h : processChunks cfg s chunks = Except.ok s1) :
    (s1.counter.map Prod.fst).Nodup := by
  induction chunks generalizing s with
  | nil =>
    simp only [processChunks, Except.ok.injEq] at h
    rw [← h]
    exact hnd
  | cons chunk rest ih =>
    simp only [processChunks] at h
    cases hbc : beginChunk cfg s chunk with
    | error e => simp [hbc] at h
    | ok sa =>
      rw [hbc] at h
      dsimp only at h
      cases hrs : processRecords cfg sa chunk.Data with
      | error f => simp [hrs] at h
      | ok sb =>
        rw [hrs] at h
        have hsa : (sa.counter.map Prod.fst).Nodup := by
          rw [(beginChunk_keeps cfg s sa chunk hbc).1]
          exact hnd
        exact ih sb (processRecords_counter_nodup cfg sa sb chunk.Data hsa hrs) h

/-- The counter table of a finished run holds each key once. -/
theorem freqIngest_counter_nodup (cfg : FreqConfig) (chunkSize : Nat) (src : Source)
    (s : FreqState) (h : freqIngest cfg chunkSize src = Except.ok s) :
    (s.counter.map Prod.fst).Nodup :=
  processChunks_counter_nodup cfg (initState cfg) s (Run chunkSize src)
    (by simp [initState]) h

theorem mem_sortedCounts (reverse : Bool) (counter : List (String × Nat)) (c : StringCount)
    (h : c ∈ sortedCounts reverse counter) : (c.Key, c.Count) ∈ counter := by
  unfold sortedCounts sortStringCountList sortReversedStringCountList at h
  dsimp only at h
  have hmem : c ∈ counter.map (fun kc => ({ Key := kc.1, Count := kc.2 } : StringCount)) := by
    cases reverse with
    | true =>
      exact (List.perm_insertionSort (fun a b : StringCount => b.Count ≤ a.Count) _).mem_iff.mp
        (by simpa using h)
    | false =>
      exact (List.perm_insertionSort (fun a b : StringCount => a.Count ≤ b.Count) _).mem_iff.mp
        (by simpa using h)
  obtain ⟨kc, hkc, rfl⟩ := List.mem_map.mp hmem
  exact hkc

/-- In a table that holds each key once, the counts written in by-frequency
mode are the `Count` fields of the sorted slice. -/
theorem emittedCounts_eq (reverse : Bool) (counter : List (String × Nat))
    (hnd : (counter.map Prod.fst).Nodup) :
    emittedCounts reverse counter = (sortedCounts reverse counter).map StringCount.Count := by
  unfold emittedCounts
  apply List.map_congr_left
  intro c hc
  rw [mapGet_of_mem_nodup counter c.Key c.Count hnd (mem_sortedCounts reverse counter c hc)]
  rfl

/-- C13: whenever sort-by-frequency is set, with or without sort-by-key, the
rows are written along the slice `counts` sorted by frequency, and for the
counter table of every finished run the sequence of emitted counts is
non-decreasing when reverse is not set and non-increasing when it is set. -/
theorem emit_by_frequency (cfg : FreqConfig) (chunkSize : Nat) (src : Source)
    (s : FreqState) (h : freqIngest cfg chunkSize src = Except.ok s) :
    (∀ sortByKey reverse, emit true sortByKey reverse s.counter
        = (sortedCounts reverse s.counter).map
            (fun count => emitRow count.Key ((mapGet s.counter count.Key).getD 0)))
    ∧ (emittedCounts false s.counter).Sorted (fun a b => a ≤ b)
    ∧ (emittedCounts true s.counter).Sorted (fun a b => b ≤ a) := by
  have hnd := freqIngest_counter_nodup cfg chunkSize src s h
  refine ⟨fun sortByKey reverse => rfl, ?_, ?_⟩
  · rw [emittedCounts_eq false s.counter hnd]
    unfold List.Sorted
    rw [List.pairwise_map]
    exact @List.sorted_insertionSort StringCount (fun a b => a.Count ≤ b.Count) _
      ⟨fun a b => Nat.le_total a.Count b.Count⟩
      ⟨fun a b c hab hbc => Nat.le_trans hab hbc⟩ _
  · rw [emittedCounts_eq true s.counter hnd]
    unfold List.Sorted
    rw [List.pairwise_map]
    exact @List.sorted_insertionSort StringCount (fun a b => b.Count ≤ a.Count) _
      ⟨fun a b => Nat.le_total b.Count a.Count⟩
      ⟨fun a b c hab hbc => Nat.le_trans hbc hab⟩ _

theorem emit_by_frequency_witness :
    freqIngest (exampleConfig [1, 2] [] false false false) 2
        { rows := [["a", "x"], ["b", "y"], ["a", "x"]], err := none }
      = Except.ok
          { fields := [1, 2]
            fieldsMap := [(1, ()), (2, ())]
            colnames2fileds := []
            colnamesMap := []
            parseHeaderRow := false
            printHeaderRow := false
            checkFields := false
            printMetaLine := true
            items := ["a", "x"]
            counter := [("a_shenwei356_x", 2), ("b_shenwei356_y", 1)]
            out := [] }
    ∧ emittedCounts false [("a_shenwei356_x", 2), ("b_shenwei356_y", 1)] = [1, 2]
    ∧ emittedCounts true [("a_shenwei356_x", 2), ("b_shenwei356_y", 1)] = [2, 1]
    ∧ ((∀ sortByKey reverse,
          emit true sortByKey reverse [("a_shenwei356_x", 2), ("b_shenwei356_y", 1)]
            = (sortedCounts reverse [("a_shenwei356_x", 2), ("b_shenwei356_y", 1)]).map
                (fun count => emitRow count.Key
                  ((mapGet [("a_shenwei356_x", 2), ("b_shenwei356_y", 1)] count.Key).getD 0)))
      ∧ (emittedCounts false [("a_shenwei356_x", 2), ("b_shenwei356_y", 1)]).Sorted
          (fun a b => a ≤ b)
      ∧ (emittedCounts true [("a_shenwei356_x", 2), ("b_shenwei356_y", 1)]).Sorted
          (fun a b => b ≤ a)) :=
  ⟨rfl, by decide, by decide,
    emit_by_frequency (exampleConfig [1, 2] [] false false false) 2
      { rows := [["a", "x"], ["b", "y"], ["a", "x"]], err := none } _ rfl⟩

/-! ## Theorems: joining and splitting keys -/

theorem intercalate_go_data (acc sep : String) (l : List String) :
    (String.intercalate.go acc sep l).data
      = acc.data ++ (l.map (fun a => sep.data ++ a.data)).flatten := by
  induction l generalizing acc with
  | nil => simp [String.intercalate.go]
  | cons a as ih =>
    simp only [String.intercalate.go, ih, String.data_append, List.map_cons,
      List.flatten_cons, List.append_assoc]

theorem joinChars_cons (sep x : List Char) (l : List (List Char)) :
    joinChars sep (x :: l) = x ++ (l.map (fun a => sep ++ a)).flatten := by
  induction l generalizing x with
  | nil => simp [joinChars]
  | cons y rest ih =>
    simp only [joinChars, ih, List.map_cons, List.flatten_cons, List.append_assoc]

/-- The characters of a joined key. -/
theorem intercalate_data (sep : String) (l : List String) :
    (String.intercalate sep l).data = joinChars sep.data (l.map String.data) := by
  cases l with
  | nil => rfl
  | cons a as =>
    simp only [String.intercalate, intercalate_go_data, List.map_cons, joinChars_cons,
      List.map_map]
    rfl

theorem joinChars_cons_of_ne_nil (sep x : List Char) (l : List (List Char)) (h : l ≠ []) :
    joinChars sep (x :: l) = x ++ sep ++ joinChars sep l := by
  cases l with
  | nil => exact absurd rfl h
  | cons y rest => rfl

theorem splitGo_ne_nil (sep s piece : List Char) (skip : Nat) :
    splitGo sep s piece skip ≠ [] := by
  induction s generalizing piece skip with
  | nil => simp [splitGo]
  | cons c cs ih =>
    cases skip with
    | succ k =>
      simp only [splitGo]
      exact ih _ _
    | zero =>
      simp only [splitGo]
      split
      · simp
      · exact ih _ _

/-- Joining the pieces of a split gives the text back. -/
theorem joinChars_splitGo (sep s piece : List Char) (skip : Nat) (hsep : sep ≠ []) :
    joinChars sep (splitGo sep s piece skip) = piece ++ s.drop skip := by
  induction s generalizing piece skip with
  | nil => simp [splitGo, joinChars]
  | cons c cs ih =>
    cases skip with
    | succ k =>
      simp only [splitGo, List.drop_succ_cons]
      exact ih _ _
    | zero =>
      simp only [splitGo, List.drop_zero]
      split
      · next hpre =>
        rw [joinChars_cons_of_ne_nil _ _ _ (splitGo_ne_nil _ _ _ _), ih, List.nil_append]
        obtain ⟨t, ht⟩ := List.isPrefixOf_iff_prefix.mp hpre
        cases sep with
        | nil => exact absurd rfl hsep
        | cons a as =>
          simp only [List.cons_append, List.cons.injEq] at ht
          obtain ⟨hac, hcs⟩ := ht
          subst hac
          rw [← hcs]
          simp
      · rw [ih]
        simp

/-- Split followed by join is the identity on keys. -/
theorem intercalate_stringsSplit (key : String) :
    String.intercalate keySep (stringsSplit key keySep) = key := by
  apply String.ext
  rw [intercalate_data]
  unfold stringsSplit
  rw [List.map_map]
  have hid : (String.data ∘ String.mk) = (id : List Char → List Char) := rfl
  rw [hid, List.map_id, joinChars_splitGo _ _ _ _ (by decide)]
  simp

/-- C20 (amended): in by-key mode (sort-by-key set, sort-by-frequency and
reverse not set) the rows are written in the order of their joined keys: for
every counter table, the selected cells of each emitted row, joined with the
separator, form a sequence that is non-decreasing under ordinal string
comparison. -/
theorem emit_by_key_order (counter : List (String × Nat)) :
    ((emit false true false counter).map
        (fun row => String.intercalate keySep row.dropLast)).Sorted
      (fun a b => ordinalLe a b = true) := by
  have hrows : (emit false true false counter).map
      (fun row => String.intercalate keySep row.dropLast) = sortedKeys false counter := by
    unfold emit
    simp only [Bool.false_eq_true, if_false, if_true, List.map_map]
    have hf : ((fun row => String.intercalate keySep row.dropLast) ∘
        fun key => emitRow key ((mapGet counter key).getD 0)) = id := by
      funext key
      simp only [Function.comp, emitRow, List.dropLast_concat, id]
      exact intercalate_stringsSplit key
    rw [hf, List.map_id]
  rw [hrows]
  exact sortStrings_sorted _

/-! ## Theorems: the joined key under the caveat condition -/

theorem keySep_data :
    keySep.data = ['_', 's', 'h', 'e', 'n', 'w', 'e', 'i', '3', '5', '6', '_'] := rfl

theorem splitGo_skip (sep pre tail piece : List Char) :
    splitGo sep (pre ++ tail) piece pre.length = splitGo sep tail piece 0 := by
  induction pre with
  | nil => rfl
  | cons c cs ih => simpa [splitGo] using ih

/-- A stretch of text inside which no separator starts is added to the piece
being read. -/
theorem splitGo_piece (sep suf rest piece : List Char)
    (hno : ∀ a b, suf = a ++ b → b ≠ [] → ¬ sep <+: b ++ rest) :
    splitGo sep (suf ++ rest) piece 0 = splitGo sep rest (piece ++ suf) 0 := by
  induction suf generalizing piece with
  | nil => simp
  | cons c cs ih =>
    have hhere : ¬ sep <+: (c :: cs) ++ rest := hno [] (c :: cs) rfl (by simp)
    have hpre : sep.isPrefixOf (c :: (cs ++ rest)) = false := by
      rw [Bool.eq_false_iff]
      intro h
      exact hhere (List.isPrefixOf_iff_prefix.mp h)
    rw [List.cons_append, splitGo, hpre]
    simp only [Bool.false_eq_true, if_false]
    rw [ih (piece ++ [c]) (fun a b hab hb => hno (c :: a) b (by rw [hab]; rfl) hb)]
    simp

/-- At a separator the piece read so far is closed and a new one begins. -/
theorem splitGo_at_sep (sep tail piece : List Char) (hsep : sep ≠ []) :
    splitGo sep (sep ++ tail) piece 0 = piece :: splitGo sep tail [] 0 := by
  cases sep with
  | nil => exact absurd rfl hsep
  | cons a as =>
    have hpre : (a :: as).isPrefixOf (a :: (as ++ tail)) = true :=
      List.isPrefixOf_iff_prefix.mpr ⟨tail, rfl⟩
    rw [List.cons_append, splitGo, hpre]
    simp only [if_true, List.length_cons, Nat.add_sub_cancel]
    rw [splitGo_skip]

/-- In a cell that neither holds the separator nor ends with `_shenwei356`, no
occurrence of the separator can start, whatever follows the separator that
comes after the cell. -/
theorem no_separator_starts_in_cell (cell a b tail : List Char)
    (hcell : cell = a ++ b) (hb : b ≠ [])
    (hin : ¬ keySep.data <:+: cell) (hend : ¬ keySep.data.dropLast <:+ cell) :
    ¬ keySep.data <+: b ++ (keySep.data ++ tail) := by
  intro hpre
  have hlen : keySep.data.length = 12 := rfl
  by_cases hlong : 12 ≤ b.length
  · have hsb : keySep.data <+: b :=
      List.prefix_of_prefix_length_le hpre (List.prefix_append _ _) (by rw [hlen]; exact hlong)
    apply hin
    rw [hcell]
    obtain ⟨t, ht⟩ := hsb
    exact ⟨a, t, by rw [← ht]; simp⟩
  · have hk1 : 1 ≤ b.length := by
      cases b with
      | nil => exact absurd rfl hb
      | cons x xs => simp
    have hbtake : b = keySep.data.take b.length := by
      have h1 : b <+: b ++ (keySep.data ++ tail) := List.prefix_append _ _
      have h2 : keySep.data.take b.length <+: b ++ (keySep.data ++ tail) :=
        (List.take_prefix _ _).trans hpre
      have h3 : b.length ≤ (keySep.data.take b.length).length := by
        rw [List.length_take, hlen]
        omega
      have h4 := List.prefix_of_prefix_length_le h1 h2 h3
      exact h4.eq_of_length (by rw [List.length_take, hlen]; omega)
    have hrest : keySep.data.drop b.length <+: keySep.data ++ tail := by
      have hsplit : b ++ keySep.data.drop b.length = keySep.data := by
        conv_lhs => rw [hbtake]
        rw [List.length_take, hlen, Nat.min_eq_left (by omega)]
        exact List.take_append_drop _ _
      obtain ⟨t, ht⟩ := hpre
      rw [← hsplit, List.append_assoc] at ht
      have ht2 := List.append_cancel_left ht
      rw [hsplit] at ht2
      exact ⟨t, ht2⟩
    generalize hk : b.length = k at hbtake hrest hlong hk1
    have hk12 : k < 12 := by omega
    rw [keySep_data] at hrest hbtake
    interval_cases k
    · simp at hrest
    · simp at hrest
    · simp at hrest
    · simp at hrest
    · simp at hrest
    · simp at hrest
    · simp at hrest
    · simp at hrest
    · simp at hrest
    · simp at hrest
    · apply hend
      rw [hcell, hbtake, keySep_data]
      exact ⟨a, rfl⟩

/-- Splitting the joined text of a non-empty tuple gives the tuple back, when
no cell holds the separator or ends with `_shenwei356`. -/
theorem splitGo_joinChars (cells : List (List Char)) (hne : cells ≠ [])
    (hcells : ∀ cell ∈ cells,
      ¬ keySep.data <:+: cell ∧ ¬ keySep.data.dropLast <:+ cell) :
    splitGo keySep.data (joinChars keySep.data cells) [] 0 = cells := by
  induction cells with
  | nil => exact absurd rfl hne
  | cons c rest ih =>
    obtain ⟨hin, hend⟩ := hcells c (List.mem_cons_self _ _)
    cases rest with
    | nil =>
      simp only [joinChars]
      have h := splitGo_piece keySep.data c [] [] (by
        intro a b hab hb hpre
        rw [List.append_nil] at hpre
        apply hin
        rw [hab]
        obtain ⟨t, ht⟩ := hpre
        exact ⟨a, t, by rw [← ht]; simp⟩)
      rw [List.append_nil] at h
      rw [h]
      simp [splitGo]
    | cons d ds =>
      simp only [joinChars, List.append_assoc]
      rw [splitGo_piece keySep.data c _ []
        (fun a b hab hb => no_separator_starts_in_cell c a b _ hab hb hin hend)]
      rw [List.nil_append, splitGo_at_sep _ _ _ (by decide)]
      rw [ih (by simp) (fun cell hc => hcells cell (List.mem_cons_of_mem _ hc))]

theorem stringsSplit_intercalate (cells : List String) (hne : cells ≠ [])
    (hcells : ∀ cell ∈ cells, ¬ containsSep cell ∧ ¬ endsWithSepHead cell) :
    stringsSplit (String.intercalate keySep cells) keySep = cells := by
  unfold stringsSplit
  rw [intercalate_data, splitGo_joinChars _ (by simpa using hne)]
  · rw [List.map_map]
    have hid : (String.mk ∘ String.data) = (id : String → String) := rfl
    rw [hid, List.map_id]
  · intro cell hc
    obtain ⟨s, hs, rfl⟩ := List.mem_map.mp hc
    exact hcells s hs

/-- C19 (amended): for every non-empty field list and every two rows none of
whose selected cells contains the separator `_shenwei356_` or ends with
`_shenwei356` (the separator without its last character), the joined keys of
the two rows are equal if and only if their selected-value tuples are equal,
and splitting the joined key of a row on the separator returns its tuple. -/
theorem joined_key_faithful (fields : List Int) (row1 row2 : Row) (hne : fields ≠ [])
    (h1 : ∀ cell ∈ selectedCells fields row1, ¬ containsSep cell ∧ ¬ endsWithSepHead cell)
    (h2 : ∀ cell ∈ selectedCells fields row2, ¬ containsSep cell ∧ ¬ endsWithSepHead cell) :
    (String.intercalate keySep (selectedCells fields row1)
        = String.intercalate keySep (selectedCells fields row2)
      ↔ selectedCells fields row1 = selectedCells fields row2)
    ∧ stringsSplit (String.intercalate keySep (selectedCells fields row1)) keySep
        = selectedCells fields row1
    ∧ stringsSplit (String.intercalate keySep (selectedCells fields row2)) keySep
        = selectedCells fields row2 := by
  have hne1 : selectedCells fields row1 ≠ [] := by simpa [selectedCells] using hne
  have hne2 : selectedCells fields row2 ≠ [] := by simpa [selectedCells] using hne
  have r1 := stringsSplit_intercalate _ hne1 h1
  have r2 := stringsSplit_intercalate _ hne2 h2
  refine ⟨⟨?_, fun h => by rw [h]⟩, r1, r2⟩
  intro hkey
  rw [← r1, ← r2, hkey]

theorem joined_key_faithful_witness :
    ([1, 2] : List Int) ≠ []
    ∧ (∀ cell ∈ selectedCells [1, 2] ["a_b", "x", "u"],
        ¬ containsSep cell ∧ ¬ endsWithSepHead cell)
    ∧ (∀ cell ∈ selectedCells [1, 2] ["a", "b_x", "v"],
        ¬ containsSep cell ∧ ¬ endsWithSepHead cell)
    ∧ ((String.intercalate keySep (selectedCells [1, 2] ["a_b", "x", "u"])
          = String.intercalate keySep (selectedCells [1, 2] ["a", "b_x", "v"])
        ↔ selectedCells [1, 2] ["a_b", "x", "u"] = selectedCells [1, 2] ["a", "b_x", "v"])
      ∧ stringsSplit (String.intercalate keySep (selectedCells [1, 2] ["a_b", "x", "u"])) keySep
          = selectedCells [1, 2] ["a_b", "x", "u"]
      ∧ stringsSplit (String.intercalate keySep (selectedCells [1, 2] ["a", "b_x", "v"])) keySep
          = selectedCells [1, 2] ["a", "b_x", "v"]) :=
  ⟨by decide, by unfold containsSep endsWithSepHead; decide,
    by unfold containsSep endsWithSepHead; decide,
    joined_key_faithful [1, 2] ["a_b", "x", "u"] ["a", "b_x", "v"] (by decide)
      (by unfold containsSep endsWithSepHead; decide)
      (by unfold containsSep endsWithSepHead; decide)⟩

/-- C19 as stated fails: none of the cells of `("_shenwei356", "x")` and of
`("", "shenwei356_x")` contains the separator, yet the two tuples have the same
joined key, because the first cell ends with the separator's first eleven
characters and the separator that follows supplies the twelfth. Splitting that
key gives the second tuple. -/
theorem separator_overlap_collision :
    (∀ cell ∈ selectedCells [1, 2] ["_shenwei356", "x"], ¬ containsSep cell)
    ∧ (∀ cell ∈ selectedCells [1, 2] ["", "shenwei356_x"], ¬ containsSep cell)
    ∧ String.intercalate keySep (selectedCells [1, 2] ["_shenwei356", "x"])
        = String.intercalate keySep (selectedCells [1, 2] ["", "shenwei356_x"])
    ∧ selectedCells [1, 2] ["_shenwei356", "x"] ≠ selectedCells [1, 2] ["", "shenwei356_x"]
    ∧ stringsSplit (String.intercalate keySep (selectedCells [1, 2] ["_shenwei356", "x"]))
        keySep = ["", "shenwei356_x"] :=
  ⟨by unfold containsSep; decide, by unfold containsSep; decide, by decide, by decide,
    by decide⟩

/-! ## Theorems: the `field out of range` error over any stream -/

/-- The first chunk of a stream that is not empty starts with the first
record. It carries no error when at least `chunkSize` records are read (it is
then a full chunk); otherwise it is the only chunk and carries the way the
stream ended. -/
theorem Run_first_chunk_any (chunkSize : Nat) (row : Row) (rest : List Row)
    (err : Option String) (hsize : 1 ≤ chunkSize) :
    ∃ c cs d, Run chunkSize { rows := row :: rest, err := err } = c :: cs
      ∧ c.Data = row :: d
      ∧ (chunkSize ≤ (row :: rest).length → c.Err = none)
      ∧ ((row :: rest).length < chunkSize → c.Err = err) := by
  obtain ⟨init, last, hrun, herr, hl, hinit⟩ :=
    runLoop_shape chunkSize err (row :: rest) (List.replicate chunkSize []) 0 0 (by simp)
      (by omega)
  have hrun' : Run chunkSize { rows := row :: rest, err := err } = init ++ [last] := hrun
  have hdata := Run_data chunkSize { rows := row :: rest, err := err } hsize
  rw [hrun'] at hdata
  rw [Nat.zero_add] at hl
  have hmodlt : (row :: rest).length % chunkSize < chunkSize := Nat.mod_lt _ (by omega)
  cases init with
  | nil =>
    simp only [List.nil_append, List.map_cons, List.map_nil, List.flatten_cons,
      List.flatten_nil, List.append_nil] at hdata
    have hdata' : last.Data = row :: rest := hdata
    have hlen : (row :: rest).length < chunkSize := by
      rw [hdata'] at hl
      omega
    exact ⟨last, [], rest, hrun', hdata', fun h => absurd hlen (by omega), fun _ => herr⟩
  | cons c init2 =>
    obtain ⟨hce, hcl⟩ := hinit c (List.mem_cons_self _ _)
    simp only [List.cons_append, List.map_cons, List.flatten_cons] at hdata
    cases hd : c.Data with
    | nil =>
      rw [hd] at hcl
      simp only [List.length_nil] at hcl
      omega
    | cons x d =>
      rw [hd] at hdata
      simp only [List.cons_append, List.cons.injEq] at hdata
      refine ⟨c, init2 ++ [last], d, hrun', by rw [← hdata.1, hd], fun _ => hce, ?_⟩
      intro hshort
      have hlen := congrArg List.length hdata.2
      rw [hd] at hcl
      simp only [List.length_cons, List.length_append] at hcl hlen hshort
      omega

/-- A read error that comes before the first chunk is full reaches the
consumer in the first chunk, and the run is aborted on it before any record is
looked at and before anything is written. -/
theorem freqIngest_first_chunk_error (cfg : FreqConfig) (chunkSize : Nat) (row : Row)
    (rest : List Row) (e : String) (hsize : 1 ≤ chunkSize)
    (hshort : (row :: rest).length < chunkSize) :
    freqIngest cfg chunkSize { rows := row :: rest, err := some e }
      = Except.error { err := FreqError.chunkErr e, out := [] } := by
  obtain ⟨c, cs, d, hrun, _, _, herr⟩ :=
    Run_first_chunk_any chunkSize row rest (some e) hsize
  have hce := herr hshort
  unfold freqIngest
  rw [hrun]
  simp only [processChunks, beginChunk, hce, Option.map_some', checkError]
  rfl

/-- The whole run over a non-empty stream whose first chunk carries no error,
for a positional specification. -/
theorem freqIngest_positional (cfg : FreqConfig) (chunkSize : Nat) (row : Row)
    (rest : List Row) (err : Option String) (hsize : 1 ≤ chunkSize)
    (hcol : cfg.colnames = []) (hne : cfg.fields ≠ [])
    (hfirst : err = none ∨ chunkSize ≤ (row :: rest).length) :
    ((∃ i ∈ requestedIndices cfg, i > (row.length : Int)) →
      ∃ field, freqIngest cfg chunkSize { rows := row :: rest, err := err }
          = Except.error
              { err := FreqError.fieldOutOfRange field row.length
                out := metaLineOutput cfg }
        ∧ field ∈ requestedIndices cfg ∧ field > (row.length : Int))
    ∧ ((¬ ∃ i ∈ requestedIndices cfg, i > (row.length : Int)) →
      ∀ f, freqIngest cfg chunkSize { rows := row :: rest, err := err } = Except.error f →
        f.err = FreqError.noFieldsMatched ∨ f.err = FreqError.indexPanic
          ∨ ∃ x, f.err = FreqError.chunkErr x) := by
  obtain ⟨c, cs, d, hrun, hd, hfull, hshort⟩ :=
    Run_first_chunk_any chunkSize row rest err hsize
  have he : c.Err = none := by
    rcases hfirst with h | h
    · by_cases hlen : chunkSize ≤ (row :: rest).length
      · exact hfull hlen
      · rw [hshort (by omega), h]
    · exact hfull h
  obtain ⟨s0, hs0, hout, hf, hm, hc⟩ := beginChunk_init cfg c he
  obtain ⟨hA, hB⟩ := processRecord_first_positional cfg s0 row hcol hne hf hm hc
  have hrunEq : freqIngest cfg chunkSize { rows := row :: rest, err := err } =
      match processRecord cfg s0 row with
      | Except.error e => Except.error { err := e, out := s0.out }
      | Except.ok s1 =>
        match processRecords cfg s1 d with
        | Except.error e => Except.error e
        | Except.ok s2 => processChunks cfg s2 cs := by
    unfold freqIngest
    rw [hrun]
    simp only [processChunks, hs0, hd, processRecords]
    cases processRecord cfg s0 row <;> rfl
  rw [hrunEq]
  constructor
  · intro hex
    obtain ⟨field, hstep, hmem, hbig⟩ := hA hex
    exact ⟨field, by rw [hstep, hout], hmem, hbig⟩
  · intro hno
    obtain ⟨herr, hok⟩ := hB hno
    intro f hfail
    cases hrec : processRecord cfg s0 row with
    | error e =>
      rw [hrec] at hfail
      simp only [Except.error.injEq] at hfail
      rw [← hfail]
      rcases herr e hrec with h | h
      · exact Or.inl h
      · exact Or.inr (Or.inl h)
    | ok s1 =>
      rw [hrec] at hfail
      obtain ⟨hp1, hc1⟩ := hok s1 hrec
      obtain ⟨h1, h2⟩ := processRecords_later cfg s1 d hp1 hc1
      dsimp only at hfail
      cases hrs : processRecords cfg s1 d with
      | error f0 =>
        rw [hrs] at hfail
        simp only [Except.error.injEq] at hfail
        rw [← hfail]
        exact Or.inr (Or.inl (h1 f0 hrs))
      | ok s2 =>
        rw [hrs] at hfail
        obtain ⟨_, hp2, hc2⟩ := h2 s2 hrs
        rcases processChunks_later cfg s2 cs hp2 hc2 f hfail with h | h
        · exact Or.inr (Or.inl h)
        · exact Or.inr (Or.inr h)

/-- C9 (amended): for a positional specification and a non-empty input,
whether the stream ends with end-of-stream or with a read error, the run fails
with `field out of range` if and only if some requested index, taken positive
as the code takes it (negated under exclude sign), exceeds the width of the
first row and no read error reaches the consumer in the first chunk (the
stream ends without error, or at least `chunkSize` rows are read before the
error). The error names such an index and that width, and when it is raised no
header or data row has been written: the only write made is the `sep=` line,
when the reader has a meta line. A read error in the first chunk aborts the
run on that error with nothing written. When the indices all carry the sign of
the specification, the index the code takes is the absolute value of the
requested integer. -/
theorem freqIngest_fieldOutOfRange (cfg : FreqConfig) (chunkSize : Nat) (row : Row)
    (rest : List Row) (err : Option String) (hsize : 1 ≤ chunkSize)
    (hcol : cfg.colnames = []) (hne : cfg.fields ≠ []) :
    ((∃ field width out, freqIngest cfg chunkSize { rows := row :: rest, err := err }
          = Except.error { err := FreqError.fieldOutOfRange field width, out := out })
      ↔ (∃ i ∈ requestedIndices cfg, (row.length : Int) < i)
          ∧ (err = none ∨ chunkSize ≤ (row :: rest).length))
    ∧ (∀ field width out, freqIngest cfg chunkSize { rows := row :: rest, err := err }
          = Except.error { err := FreqError.fieldOutOfRange field width, out := out } →
        field ∈ requestedIndices cfg ∧ (row.length : Int) < field
          ∧ width = row.length
          ∧ out = metaLineOutput cfg
          ∧ ∀ cells, Output.record cells ∉ out)
    ∧ (∀ e, err = some e → (row :: rest).length < chunkSize →
        freqIngest cfg chunkSize { rows := row :: rest, err := err }
          = Except.error { err := FreqError.chunkErr e, out := [] })
    ∧ ((∀ f ∈ cfg.fields, if cfg.negativeFields = true then f < 0 else 0 < f) →
        ∀ i : Int, i ∈ requestedIndices cfg ↔ ∃ f ∈ cfg.fields, i = (f.natAbs : Int)) := by
  have hrows : ∀ cells, Output.record cells ∉ metaLineOutput cfg := by
    intro cells
    unfold metaLineOutput
    split <;> simp
  have hchunk : ∀ e, err = some e → (row :: rest).length < chunkSize →
      freqIngest cfg chunkSize { rows := row :: rest, err := err }
        = Except.error { err := FreqError.chunkErr e, out := [] } := by
    intro e he hshort
    rw [he]
    exact freqIngest_first_chunk_error cfg chunkSize row rest e hsize hshort
  have hsignEq : (∀ f ∈ cfg.fields, if cfg.negativeFields = true then f < 0 else 0 < f) →
      ∀ i : Int, i ∈ requestedIndices cfg ↔ ∃ f ∈ cfg.fields, i = (f.natAbs : Int) := by
    intro hsign i
    unfold requestedIndices
    simp only [List.mem_map]
    constructor
    · rintro ⟨f, hfm, rfl⟩
      refine ⟨f, hfm, ?_⟩
      have := hsign f hfm
      by_cases hn : cfg.negativeFields = true
      · rw [if_pos hn] at this ⊢
        omega
      · rw [if_neg hn] at this ⊢
        omega
    · rintro ⟨f, hfm, rfl⟩
      refine ⟨f, hfm, ?_⟩
      have := hsign f hfm
      by_cases hn : cfg.negativeFields = true
      · rw [if_pos hn] at this ⊢
        omega
      · rw [if_neg hn] at this ⊢
        omega
  refine ⟨?_, ?_, hchunk, hsignEq⟩
  · by_cases hfirst : err = none ∨ chunkSize ≤ (row :: rest).length
    · obtain ⟨hA, hB⟩ :=
        freqIngest_positional cfg chunkSize row rest err hsize hcol hne hfirst
      by_cases hbig : ∃ i ∈ requestedIndices cfg, i > (row.length : Int)
      · obtain ⟨field, hrun, _, _⟩ := hA hbig
        exact ⟨fun _ => ⟨hbig, hfirst⟩, fun _ => ⟨field, row.length, _, hrun⟩⟩
      · constructor
        · rintro ⟨field, width, out, hrun⟩
          rcases hB hbig _ hrun with h | h | ⟨x, h⟩ <;> simp at h
        · rintro ⟨h, _⟩
          exact absurd h hbig
    · constructor
      · rintro ⟨field, width, out, hrun⟩
        exfalso
        cases herr : err with
        | none => exact hfirst (Or.inl herr)
        | some e =>
          rw [hchunk e herr (by
            by_contra hlen
            exact hfirst (Or.inr (by omega)))] at hrun
          simp at hrun
      · rintro ⟨_, h⟩
        exact absurd h hfirst
  · intro field width out hrun
    by_cases hfirst : err = none ∨ chunkSize ≤ (row :: rest).length
    · obtain ⟨hA, hB⟩ :=
        freqIngest_positional cfg chunkSize row rest err hsize hcol hne hfirst
      by_cases hbig : ∃ i ∈ requestedIndices cfg, i > (row.length : Int)
      · obtain ⟨field2, hrun2, hmem, hgt⟩ := hA hbig
        rw [hrun2] at hrun
        simp only [Except.error.injEq, Failure.mk.injEq,
          FreqError.fieldOutOfRange.injEq] at hrun
        obtain ⟨⟨h1, h2⟩, h3⟩ := hrun
        subst h1 h2 h3
        exact ⟨hmem, hgt, rfl, rfl, hrows⟩
      · exfalso
        rcases hB hbig _ hrun with h | h | ⟨x, h⟩ <;> simp at h
    · exfalso
      cases herr : err with
      | none => exact hfirst (Or.inl herr)
      | some e =>
        rw [hchunk e herr (by
          by_contra hlen
          exact hfirst (Or.inr (by omega)))] at hrun
        simp at hrun

theorem freqIngest_fieldOutOfRange_witness :
    1 ≤ 1
    ∧ (exampleConfig [5] [] false true false).colnames = []
    ∧ (exampleConfig [5] [] false true false).fields ≠ []
    ∧ freqIngest (exampleConfig [5] [] false true false) 1
        { rows := ["a", "b", "c"] :: [["1", "2", "3"]], err := some "bad" }
      = Except.error { err := FreqError.fieldOutOfRange 5 3, out := [] }
    ∧ (((∃ field width out, freqIngest (exampleConfig [5] [] false true false) 1
            { rows := ["a", "b", "c"] :: [["1", "2", "3"]], err := some "bad" }
          = Except.error { err := FreqError.fieldOutOfRange field width, out := out })
        ↔ (∃ i ∈ requestedIndices (exampleConfig [5] [] false true false),
              ((["a", "b", "c"] : Row).length : Int) < i)
            ∧ ((some "bad" : Option String) = none
                ∨ 1 ≤ (["a", "b", "c"] :: [["1", "2", "3"]] : List Row).length))
      ∧ (∀ field width out, freqIngest (exampleConfig [5] [] false true false) 1
            { rows := ["a", "b", "c"] :: [["1", "2", "3"]], err := some "bad" }
          = Except.error { err := FreqError.fieldOutOfRange field width, out := out } →
          field ∈ requestedIndices (exampleConfig [5] [] false true false)
            ∧ ((["a", "b", "c"] : Row).length : Int) < field
            ∧ width = (["a", "b", "c"] : Row).length
            ∧ out = metaLineOutput (exampleConfig [5] [] false true false)
            ∧ ∀ cells, Output.record cells ∉ out)
      ∧ (∀ e, (some "bad" : Option String) = some e →
          (["a", "b", "c"] :: [["1", "2", "3"]] : List Row).length < 1 →
          freqIngest (exampleConfig [5] [] false true false) 1
            { rows := ["a", "b", "c"] :: [["1", "2", "3"]], err := some "bad" }
            = Except.error { err := FreqError.chunkErr e, out := [] })
      ∧ ((∀ f ∈ (exampleConfig [5] [] false true false).fields,
            if (exampleConfig [5] [] false true false).negativeFields = true then f < 0
            else 0 < f) →
          ∀ i : Int, i ∈ requestedIndices (exampleConfig [5] [] false true false)
            ↔ ∃ f ∈ (exampleConfig [5] [] false true false).fields,
                i = (f.natAbs : Int))) :=
  ⟨by decide, rfl, by decide, rfl,
    freqIngest_fieldOutOfRange (exampleConfig [5] [] false true false) 1 ["a", "b", "c"]
      [["1", "2", "3"]] (some "bad") (by decide) rfl (by decide)⟩

end Csvtk
